import Mathlib

/-!
Verification of the in-memory cache subsystem of the go-utils repository
(package cache: FIFOCache, LRUCache, LFUCache, TimedCache).

The Go code is shallowly embedded:
* a Go map K→V is an association list whose keys are unique in every
  reachable state (writing and deleting keep at most one binding per key);
* a doubly linked list of nodes (container/list) is the Lean list of the
  node contents in front-to-back order; node-pointer surgery (Remove,
  PushBack, MoveToFront) becomes keyed removal/append/cons on that list;
* Go int / int64 nanosecond timestamps are Lean Int (the claims under
  verification do not depend on 64-bit wraparound);
* time.Now() is an explicit parameter of every operation that reads the
  clock (the reads within a single call are modelled as one instant);
* sync.RWMutex acquisition is the identity in this sequential semantics,
  so a concurrency-safe variant and its plain twin share one model;
* constructors return Option: none models the (nil, error) return.
-/

namespace GoUtilsCache

variable {K : Type} {V : Type} [DecidableEq K]

/-- Go map read cacheMap[k] over the association-list model. -/
def alookup : List (K × V) → K → Option V
  | [], _ => none
  | (k', v) :: rest, k => if k = k' then some v else alookup rest k

/-- Go map write cacheMap[k] = v: replace the binding if present, append it
otherwise. -/
def aset : List (K × V) → K → V → List (K × V)
  | [], k, v => [(k, v)]
  | (k', v') :: rest, k, v =>
    if k = k' then (k, v) :: rest else (k', v') :: aset rest k v

/-- Go map erase delete(cacheMap, k): drop the binding for k. -/
def aerase : List (K × V) → K → List (K × V)
  | [], _ => []
  | (k', v') :: rest, k => if k = k' then rest else (k', v') :: aerase rest k

/-- The keys of an association list, in order. -/
def akeys (m : List (K × V)) : List K := m.map Prod.fst

/-- Removal of the list node holding key k (container/list Remove applied to
the unique node for k). -/
def lerase : List K → K → List K
  | [], _ => []
  | k' :: rest, k => if k = k' then rest else k' :: lerase rest k

theorem alookup_eq_none_of_not_mem {m : List (K × V)} {k : K}
    (h : k ∉ akeys m) : alookup m k = none := by
  induction m with
  | nil => rfl
  | cons p rest ih =>
    simp only [akeys, List.map_cons, List.mem_cons, not_or] at h
    simp only [alookup, if_neg h.1, ih h.2]

theorem mem_akeys_of_alookup {m : List (K × V)} {k : K} {v : V}
    (h : alookup m k = some v) : k ∈ akeys m := by
  by_contra hk
  rw [alookup_eq_none_of_not_mem hk] at h
  exact Option.noConfusion h

theorem mem_of_alookup {m : List (K × V)} {k : K} {v : V}
    (h : alookup m k = some v) : (k, v) ∈ m := by
  induction m with
  | nil => exact Option.noConfusion h
  | cons p rest ih =>
    by_cases hk : k = p.1
    · obtain ⟨k', v'⟩ := p
      simp only [alookup, if_pos hk] at h
      obtain rfl := hk
      obtain rfl := Option.some.inj h
      exact List.mem_cons_self _ _
    · obtain ⟨k', v'⟩ := p
      simp only [alookup, if_neg hk] at h
      exact List.mem_cons_of_mem _ (ih h)

theorem alookup_isSome_of_mem {m : List (K × V)} {k : K} {v : V}
    (h : (k, v) ∈ m) : (alookup m k).isSome := by
  induction m with
  | nil => exact absurd h (List.not_mem_nil _)
  | cons p rest ih =>
    obtain ⟨k', v'⟩ := p
    by_cases hk : k = k'
    · simp [alookup, hk]
    · rcases List.mem_cons.mp h with h1 | h2
      · exact absurd (congrArg Prod.fst h1) hk
      · simp only [alookup, if_neg hk]
        exact ih h2

theorem alookup_aset_self (m : List (K × V)) (k : K) (v : V) :
    alookup (aset m k v) k = some v := by
  induction m with
  | nil => simp [aset, alookup]
  | cons p rest ih =>
    obtain ⟨k', v'⟩ := p
    by_cases hk : k = k'
    · simp [aset, alookup, hk]
    · simp [aset, alookup, hk, ih]

theorem alookup_aset_ne (m : List (K × V)) {k k' : K} (v : V) (h : k' ≠ k) :
    alookup (aset m k v) k' = alookup m k' := by
  induction m with
  | nil => simp [aset, alookup, h]
  | cons p rest ih =>
    obtain ⟨k1, v1⟩ := p
    by_cases hk : k = k1
    · subst hk
      simp [aset, alookup, h, if_neg h]
    · by_cases hk' : k' = k1
      · simp [aset, alookup, hk, hk']
      · simp [aset, alookup, hk, hk', ih]

theorem alookup_aerase_ne (m : List (K × V)) {k k' : K} (h : k' ≠ k) :
    alookup (aerase m k) k' = alookup m k' := by
  induction m with
  | nil => rfl
  | cons p rest ih =>
    obtain ⟨k1, v1⟩ := p
    by_cases hk : k = k1
    · subst hk
      simp [aerase, alookup, if_neg h]
    · by_cases hk' : k' = k1
      · simp [aerase, alookup, hk, hk']
      · simp [aerase, alookup, hk, hk', ih]

theorem alookup_aerase_self {m : List (K × V)} (k : K)
    (h : (akeys m).Nodup) : alookup (aerase m k) k = none := by
  induction m with
  | nil => rfl
  | cons p rest ih =>
    obtain ⟨k1, v1⟩ := p
    simp only [akeys, List.map_cons, List.nodup_cons] at h
    by_cases hk : k = k1
    · subst hk
      simp only [aerase, if_pos rfl]
      exact alookup_eq_none_of_not_mem h.1
    · simp only [aerase, if_neg hk, alookup, if_neg hk]
      exact ih h.2

theorem akeys_aerase (m : List (K × V)) (k : K) :
    akeys (aerase m k) = lerase (akeys m) k := by
  induction m with
  | nil => rfl
  | cons p rest ih =>
    obtain ⟨k1, v1⟩ := p
    by_cases hk : k = k1
    · simp [aerase, akeys, lerase, hk]
    · simp [aerase, akeys, lerase, hk]
      exact ih

theorem lerase_subset (l : List K) (k : K) : ∀ x ∈ lerase l k, x ∈ l := by
  induction l with
  | nil => intro x hx; exact absurd hx (List.not_mem_nil _)
  | cons k1 rest ih =>
    intro x hx
    by_cases hk : k = k1
    · simp only [lerase, if_pos hk] at hx
      exact List.mem_cons_of_mem _ hx
    · simp only [lerase, if_neg hk, List.mem_cons] at hx
      rcases hx with h1 | h2
      · exact List.mem_cons.mpr (Or.inl h1)
      · exact List.mem_cons_of_mem _ (ih x h2)

theorem lerase_nodup {l : List K} (k : K) (h : l.Nodup) :
    (lerase l k).Nodup := by
  induction l with
  | nil => exact List.nodup_nil
  | cons k1 rest ih =>
    rw [List.nodup_cons] at h
    by_cases hk : k = k1
    · simpa [lerase, hk] using h.2
    · rw [lerase, if_neg hk, List.nodup_cons]
      exact ⟨fun hc => h.1 (lerase_subset rest k k1 hc), ih h.2⟩

theorem mem_lerase_of_ne {l : List K} {k x : K} (h : x ∈ l) (hne : x ≠ k) :
    x ∈ lerase l k := by
  induction l with
  | nil => exact absurd h (List.not_mem_nil _)
  | cons k1 rest ih =>
    by_cases hk : k = k1
    · subst hk
      rcases List.mem_cons.mp h with h1 | h2
      · exact absurd h1 hne
      · simpa [lerase] using h2
    · rw [lerase, if_neg hk]
      rcases List.mem_cons.mp h with h1 | h2
      · exact List.mem_cons.mpr (Or.inl h1)
      · exact List.mem_cons_of_mem _ (ih h2)

theorem not_mem_lerase {l : List K} {k : K} (h : l.Nodup) :
    k ∉ lerase l k := by
  induction l with
  | nil => exact List.not_mem_nil _
  | cons k1 rest ih =>
    rw [List.nodup_cons] at h
    by_cases hk : k = k1
    · subst hk
      simpa [lerase] using h.1
    · rw [lerase, if_neg hk]
      intro hc
      rcases List.mem_cons.mp hc with h1 | h2
      · exact hk h1
      · exact ih h.2 h2

theorem length_lerase_of_mem {l : List K} {k : K} (h : k ∈ l) :
    (lerase l k).length + 1 = l.length := by
  induction l with
  | nil => exact absurd h (List.not_mem_nil _)
  | cons k1 rest ih =>
    by_cases hk : k = k1
    · simp [lerase, hk]
    · rw [lerase, if_neg hk]
      rcases List.mem_cons.mp h with h1 | h2
      · exact absurd h1 hk
      · simp only [List.length_cons]
        rw [← ih h2]

theorem length_lerase_of_not_mem {l : List K} {k : K} (h : k ∉ l) :
    lerase l k = l := by
  induction l with
  | nil => rfl
  | cons k1 rest ih =>
    rw [List.mem_cons, not_or] at h
    rw [lerase, if_neg (fun hc => h.1 hc), ih h.2]

theorem akeys_aset_of_lookup_some {m : List (K × V)} {k : K} (v : V)
    (h : (alookup m k).isSome) : akeys (aset m k v) = akeys m := by
  induction m with
  | nil => simp [alookup] at h
  | cons p rest ih =>
    obtain ⟨k1, v1⟩ := p
    by_cases hk : k = k1
    · simp [aset, akeys, hk]
    · simp only [alookup, if_neg hk] at h
      have ih' := ih h
      simp only [akeys] at ih'
      simp [aset, akeys, hk, ih']

theorem akeys_aset_of_lookup_none {m : List (K × V)} {k : K} (v : V)
    (h : alookup m k = none) : akeys (aset m k v) = akeys m ++ [k] := by
  induction m with
  | nil => rfl
  | cons p rest ih =>
    obtain ⟨k1, v1⟩ := p
    by_cases hk : k = k1
    · simp [alookup, if_pos hk] at h
    · simp only [alookup, if_neg hk] at h
      have ih' := ih h
      simp only [akeys] at ih'
      simp [aset, akeys, hk, ih']

theorem length_aset_of_lookup_some {m : List (K × V)} {k : K} (v : V)
    (h : (alookup m k).isSome) : (aset m k v).length = m.length := by
  have := akeys_aset_of_lookup_some (m := m) (k := k) v h
  have h1 : (akeys (aset m k v)).length = (akeys m).length := by rw [this]
  simpa [akeys] using h1

theorem length_aset_of_lookup_none {m : List (K × V)} {k : K} (v : V)
    (h : alookup m k = none) : (aset m k v).length = m.length + 1 := by
  have := akeys_aset_of_lookup_none (m := m) (k := k) v h
  have h1 : (akeys (aset m k v)).length = (akeys m ++ [k]).length := by rw [this]
  simpa [akeys] using h1

theorem length_aerase_of_lookup_some {m : List (K × V)} {k : K}
    (h : (alookup m k).isSome) : (aerase m k).length + 1 = m.length := by
  obtain ⟨v, hv⟩ := Option.isSome_iff_exists.mp h
  have hk : k ∈ akeys m := mem_akeys_of_alookup hv
  have h1 := length_lerase_of_mem hk
  rw [← akeys_aerase] at h1
  simpa [akeys] using h1

theorem length_aerase_le (m : List (K × V)) (k : K) :
    (aerase m k).length ≤ m.length := by
  induction m with
  | nil => simp [aerase]
  | cons p rest ih =>
    obtain ⟨k1, v1⟩ := p
    by_cases hk : k = k1
    · simp [aerase, hk]
    · simp only [aerase, if_neg hk, List.length_cons]
      omega

theorem alookup_isSome_of_mem_akeys {m : List (K × V)} {k : K}
    (h : k ∈ akeys m) : (alookup m k).isSome := by
  induction m with
  | nil => exact absurd h (List.not_mem_nil _)
  | cons p rest ih =>
    obtain ⟨k1, v1⟩ := p
    by_cases hk : k = k1
    · simp [alookup, hk]
    · simp only [akeys, List.map_cons, List.mem_cons] at h
      rcases h with h1 | h2
      · exact absurd h1 hk
      · simp only [alookup, if_neg hk]
        exact ih h2

theorem nodup_akeys_aset {m : List (K × V)} (k : K) (v : V)
    (h : (akeys m).Nodup) : (akeys (aset m k v)).Nodup := by
  cases hl : alookup m k with
  | none =>
    rw [akeys_aset_of_lookup_none v hl]
    have hk : k ∉ akeys m := fun hc => by
      have := alookup_isSome_of_mem_akeys hc
      rw [hl] at this
      exact Bool.noConfusion this
    simp [List.nodup_append, h, hk]
  | some v0 =>
    rw [akeys_aset_of_lookup_some v (by simp [hl])]
    exact h

theorem nodup_akeys_aerase {m : List (K × V)} (k : K)
    (h : (akeys m).Nodup) : (akeys (aerase m k)).Nodup := by
  rw [akeys_aerase]
  exact lerase_nodup k h

/-!
FIFO cache (src/cache/fifo_cache.go).  The concurrent variant keeps
cache : map[K]cacheEntry (value + node pointer) and queue : *list.List of
keys; the plain variant keeps map[K]V and a []K queue.  Both behave
identically in the sequential semantics; the model carries the queue as the
front-to-back list of keys and the map as an association list key ↦ value
(the node pointer of the concurrent variant is recovered as the unique
queue position of the key).
-/

structure FIFOCache (K V : Type) where
  cache : List (K × V)
  queue : List K
  capacity : Nat

/-- NewFIFOCache: fails (returns nil plus a non-nil error, modelled none)
iff capacity <= 0. -/
def fifoNew (K V : Type) (capacity : Int) : Option (FIFOCache K V) :=
  if capacity ≤ 0 then none
  else some { cache := [], queue := [], capacity := capacity.toNat }

/-- FIFOCache.Get: a pure map read; FIFO Get does not touch the queue or
the map, so the state is returned unchanged by the step function below. -/
def fifoGet (f : FIFOCache K V) (k : K) : Option V :=
  alookup f.cache k

/-- FIFOCache.Set: update in place if the key exists; otherwise evict the
queue front when the queue is at capacity, then push the new key at the
back. -/
def fifoSet (f : FIFOCache K V) (k : K) (v : V) : FIFOCache K V :=
  if (alookup f.cache k).isSome then
    { f with cache := aset f.cache k v }
  else
    let f1 :=
      if f.queue.length ≥ f.capacity then
        match f.queue with
        | [] => f
        | k0 :: rest => { f with cache := aerase f.cache k0, queue := rest }
      else f
    { f1 with cache := aset f1.cache k v, queue := f1.queue ++ [k] }

/-- FIFOCache.Delete: remove the key from the map and its node from the
queue (no-op when absent). -/
def fifoDelete (f : FIFOCache K V) (k : K) : FIFOCache K V :=
  if (alookup f.cache k).isSome then
    { f with cache := aerase f.cache k, queue := lerase f.queue k }
  else f

/-- FIFOCache.Len: the concurrent variant returns queue.Len() (the plain
variant returns len(cache); the two agree on reachable states). -/
def fifoLen (f : FIFOCache K V) : Nat := f.queue.length

/-- FIFOCache.Clear: reset map and queue. -/
def fifoClear (f : FIFOCache K V) : FIFOCache K V :=
  { f with cache := [], queue := [] }

/-- One operation of the uniform cache contract (len is read-only for
FIFO/LRU/LFU and is omitted from the step alphabet of those policies). -/
inductive COp (K V : Type) where
  | get (k : K)
  | set (k : K) (v : V)
  | del (k : K)
  | clear

/-- One FIFO operation (Get returns the value but leaves the state alone). -/
def fifoStep (f : FIFOCache K V) : COp K V → FIFOCache K V
  | .get _ => f
  | .set k v => fifoSet f k v
  | .del k => fifoDelete f k
  | .clear => fifoClear f

/-- A whole client session against one FIFO cache instance. -/
def fifoRun (f : FIFOCache K V) (ops : List (COp K V)) : FIFOCache K V :=
  ops.foldl fifoStep f

/-- Well-formedness of a FIFO state: the queue lists each live key exactly
once, map and queue agree, and the size respects the capacity. -/
structure FIFOInv (f : FIFOCache K V) : Prop where
  nodupQueue : f.queue.Nodup
  nodupKeys : (akeys f.cache).Nodup
  sync : ∀ k : K, k ∈ f.queue ↔ (alookup f.cache k).isSome
  lenLe : f.queue.length ≤ f.capacity
  capPos : 1 ≤ f.capacity

theorem fifoInv_new {K V : Type} [DecidableEq K] {c : Int}
    {f : FIFOCache K V} (h : fifoNew K V c = some f) : FIFOInv f := by
  rw [fifoNew] at h
  by_cases hc : c ≤ 0
  · rw [if_pos hc] at h
    exact Option.noConfusion h
  · rw [if_neg hc] at h
    obtain rfl := Option.some.inj h
    refine ⟨List.nodup_nil, List.nodup_nil, ?_, ?_, ?_⟩
    · intro k
      simp [alookup]
    · simp
    · simp only []
      omega

theorem fifoInv_set {f : FIFOCache K V} (inv : FIFOInv f) (k : K) (v : V) :
    FIFOInv (fifoSet f k v) := by
  rw [fifoSet]
  by_cases hk : (alookup f.cache k).isSome
  · rw [if_pos hk]
    refine ⟨inv.nodupQueue, nodup_akeys_aset k v inv.nodupKeys, ?_, inv.lenLe, inv.capPos⟩
    intro k'
    by_cases hkk : k' = k
    · subst hkk
      simp [alookup_aset_self, (inv.sync k').mpr hk]
    · rw [alookup_aset_ne _ _ hkk]
      exact inv.sync k'
  · rw [if_neg hk]
    replace hk : alookup f.cache k = none := by
      cases hres : alookup f.cache k
      · rfl
      · rw [hres] at hk
        simp at hk
    by_cases hfull : f.queue.length ≥ f.capacity
    · rw [if_pos hfull]
      match hq : f.queue with
      | [] =>
        exfalso
        rw [hq] at hfull
        simp only [List.length_nil] at hfull
        have := inv.capPos
        omega
      | k0 :: rest =>
        have hq0 : f.queue.Nodup := inv.nodupQueue
        rw [hq, List.nodup_cons] at hq0
        have hk0mem : (alookup f.cache k0).isSome := (inv.sync k0).mp (by rw [hq]; exact List.mem_cons_self _ _)
        have hkq : k ∉ f.queue := fun hc => by
          have := (inv.sync k).mp hc
          rw [hk] at this
          exact Bool.noConfusion this
        have hkk0 : k ≠ k0 := fun hc => by
          subst hc
          exact hkq (by rw [hq]; exact List.mem_cons_self _ _)
        have hkrest : k ∉ rest := fun hc => hkq (by rw [hq]; exact List.mem_cons_of_mem _ hc)
        have hlookE : alookup (aerase f.cache k0) k = none := by
          rw [alookup_aerase_ne _ hkk0]
          exact hk
        refine ⟨?_, ?_, ?_, ?_, inv.capPos⟩
        · simp only []
          rw [List.nodup_append]
          exact ⟨hq0.2, List.nodup_singleton k, by
            intro a ha hb
            obtain rfl := List.mem_singleton.mp hb
            exact hkrest ha⟩
        · simp only []
          exact nodup_akeys_aset k v (nodup_akeys_aerase k0 inv.nodupKeys)
        · intro k'
          simp only [List.mem_append, List.mem_singleton]
          by_cases hk' : k' = k
          · subst hk'
            simp [alookup_aset_self]
          · rw [alookup_aset_ne _ _ hk']
            constructor
            · intro hmem
              rcases hmem with hmem | hmem
              · have hk'k0 : k' ≠ k0 := fun hc => hq0.1 (hc ▸ hmem)
                rw [alookup_aerase_ne _ hk'k0]
                exact (inv.sync k').mp (by rw [hq]; exact List.mem_cons_of_mem _ hmem)
              · exact absurd hmem hk'
            · intro hsome
              by_cases hk'k0 : k' = k0
              · subst hk'k0
                rw [alookup_aerase_self _ inv.nodupKeys] at hsome
                exact Bool.noConfusion hsome
              · rw [alookup_aerase_ne _ hk'k0] at hsome
                have := (inv.sync k').mpr hsome
                rw [hq] at this
                rcases List.mem_cons.mp this with h1 | h2
                · exact absurd h1 hk'k0
                · exact Or.inl h2
        · simp only [List.length_append, List.length_singleton]
          have hq1 : f.queue.length = rest.length + 1 := by rw [hq]; simp
          have hle := inv.lenLe
          omega
    · rw [if_neg hfull]
      have hkq : k ∉ f.queue := fun hc => by
        have := (inv.sync k).mp hc
        rw [hk] at this
        exact Bool.noConfusion this
      refine ⟨?_, nodup_akeys_aset k v inv.nodupKeys, ?_, ?_, inv.capPos⟩
      · simp only []
        rw [List.nodup_append]
        exact ⟨inv.nodupQueue, List.nodup_singleton k, by
          intro a ha hb
          obtain rfl := List.mem_singleton.mp hb
          exact hkq ha⟩
      · intro k'
        simp only [List.mem_append, List.mem_singleton]
        by_cases hk' : k' = k
        · subst hk'
          simp [alookup_aset_self]
        · rw [alookup_aset_ne _ _ hk']
          rw [← inv.sync k']
          exact ⟨fun h => h.elim id (fun hc => absurd hc hk'), Or.inl⟩
      · simp only [List.length_append, List.length_singleton]
        omega

theorem fifoInv_delete {f : FIFOCache K V} (inv : FIFOInv f) (k : K) :
    FIFOInv (fifoDelete f k) := by
  rw [fifoDelete]
  by_cases hk : (alookup f.cache k).isSome
  · rw [if_pos hk]
    refine ⟨lerase_nodup k inv.nodupQueue, nodup_akeys_aerase k inv.nodupKeys, ?_, ?_, inv.capPos⟩
    · intro k'
      by_cases hk' : k' = k
      · subst hk'
        rw [alookup_aerase_self _ inv.nodupKeys]
        simp [not_mem_lerase inv.nodupQueue]
      · rw [alookup_aerase_ne _ hk']
        constructor
        · intro hmem
          exact (inv.sync k').mp (lerase_subset _ _ _ hmem)
        · intro hsome
          exact mem_lerase_of_ne ((inv.sync k').mpr hsome) hk'
    · simp only []
      calc (lerase f.queue k).length ≤ f.queue.length := by
            have hkq := (inv.sync k).mpr hk
            have := length_lerase_of_mem hkq
            omega
        _ ≤ f.capacity := inv.lenLe
  · rw [if_neg hk]
    exact inv

theorem fifoInv_step {f : FIFOCache K V} (inv : FIFOInv f) (op : COp K V) :
    FIFOInv (fifoStep f op) := by
  cases op with
  | get k => exact inv
  | set k v => exact fifoInv_set inv k v
  | del k => exact fifoInv_delete inv k
  | clear =>
    exact ⟨List.nodup_nil, List.nodup_nil,
      fun k => by simp [fifoStep, fifoClear, alookup],
      by simp [fifoStep, fifoClear], inv.capPos⟩

theorem fifoInv_run {f : FIFOCache K V} (inv : FIFOInv f)
    (ops : List (COp K V)) : FIFOInv (fifoRun f ops) := by
  induction ops generalizing f with
  | nil => exact inv
  | cons op rest ih => exact ih (fifoInv_step inv op)

/-!
LRU cache (src/cache/fifo_cache.go, LRUCache sections; the concurrent and
the plain variant run the same algorithm).  The Go state is a map
key ↦ *list.Element plus a doubly linked list of entry{key value} nodes in
recency order, front = most recently used.  Every datum lives in the list
nodes, so the model is the front-to-back node list; the map is the keyed
view of it and map operations become keyed list operations.
-/

structure LRUCache (K V : Type) where
  list : List (K × V)
  capacity : Nat

/-- NewLRUCache: fails iff capacity <= 0. -/
def lruNew (K V : Type) (capacity : Int) : Option (LRUCache K V) :=
  if capacity ≤ 0 then none
  else some { list := [], capacity := capacity.toNat }

/-- LRUCache.Get: on a hit, MoveToFront of the node (remove it from its
position, re-link at the front) and return its value. -/
def lruGet (l : LRUCache K V) (k : K) : Option V × LRUCache K V :=
  match alookup l.list k with
  | none => (none, l)
  | some v => (some v, { l with list := (k, v) :: aerase l.list k })

/-- LRUCache.Set: on an existing key update the node value and MoveToFront;
on a new key first evict the back node (deleting its key from the map) when
the list is at capacity, then PushFront the new node. -/
def lruSet (l : LRUCache K V) (k : K) (v : V) : LRUCache K V :=
  match alookup l.list k with
  | some _ => { l with list := (k, v) :: aerase l.list k }
  | none =>
    let l1 :=
      if l.list.length ≥ l.capacity then
        match l.list.getLast? with
        | some _ => { l with list := l.list.dropLast }
        | none => l
      else l
    { l1 with list := (k, v) :: l1.list }

/-- LRUCache.Delete: unlink the node and delete the map entry. -/
def lruDelete (l : LRUCache K V) (k : K) : LRUCache K V :=
  match alookup l.list k with
  | some _ => { l with list := aerase l.list k }
  | none => l

/-- LRUCache.Len: list.Len(). -/
def lruLen (l : LRUCache K V) : Nat := l.list.length

/-- LRUCache.Clear: reset list and map. -/
def lruClear (l : LRUCache K V) : LRUCache K V := { l with list := [] }

/-- One LRU operation. -/
def lruStep (l : LRUCache K V) : COp K V → LRUCache K V
  | .get k => (lruGet l k).2
  | .set k v => lruSet l k v
  | .del k => lruDelete l k
  | .clear => lruClear l

/-- A whole client session against one LRU cache instance. -/
def lruRun (l : LRUCache K V) (ops : List (COp K V)) : LRUCache K V :=
  ops.foldl lruStep l

/-- Well-formedness of an LRU state: unique keys, size within capacity. -/
structure LRUInv (l : LRUCache K V) : Prop where
  nodupKeys : (akeys l.list).Nodup
  lenLe : l.list.length ≤ l.capacity
  capPos : 1 ≤ l.capacity

theorem lruInv_new {K V : Type} [DecidableEq K] {c : Int}
    {l : LRUCache K V} (h : lruNew K V c = some l) : LRUInv l := by
  rw [lruNew] at h
  by_cases hc : c ≤ 0
  · rw [if_pos hc] at h
    exact Option.noConfusion h
  · rw [if_neg hc] at h
    obtain rfl := Option.some.inj h
    exact ⟨List.nodup_nil, by simp, by simp only []; omega⟩

theorem nodup_akeys_cons_aerase {m : List (K × V)} {k : K} (v : V)
    (h : (akeys m).Nodup) : (akeys ((k, v) :: aerase m k)).Nodup := by
  simp only [akeys, List.map_cons, List.nodup_cons]
  constructor
  · intro hc
    have hmem : k ∈ akeys (aerase m k) := hc
    have := alookup_isSome_of_mem_akeys hmem
    rw [alookup_aerase_self _ h] at this
    exact Bool.noConfusion this
  · have := nodup_akeys_aerase (m := m) k h
    simpa [akeys] using this

theorem length_cons_aerase_of_some {m : List (K × V)} {k : K} {v0 : V}
    (v : V) (h : alookup m k = some v0) :
    ((k, v) :: aerase m k).length = m.length := by
  have := length_aerase_of_lookup_some (m := m) (k := k) (by simp [h])
  simp only [List.length_cons]
  omega

theorem lruInv_step {l : LRUCache K V} (inv : LRUInv l) (op : COp K V) :
    LRUInv (lruStep l op) := by
  cases op with
  | get k =>
    show LRUInv (lruGet l k).2
    rw [lruGet]
    cases hl : alookup l.list k with
    | none => exact inv
    | some v =>
      refine ⟨nodup_akeys_cons_aerase v inv.nodupKeys, ?_, inv.capPos⟩
      simp only []
      rw [length_cons_aerase_of_some v hl]
      exact inv.lenLe
  | set k v =>
    show LRUInv (lruSet l k v)
    rw [lruSet]
    cases hl : alookup l.list k with
    | some v0 =>
      refine ⟨nodup_akeys_cons_aerase v inv.nodupKeys, ?_, inv.capPos⟩
      simp only []
      rw [length_cons_aerase_of_some v hl]
      exact inv.lenLe
    | none =>
      by_cases hfull : l.list.length ≥ l.capacity
      · rw [if_pos hfull]
        cases hlast : l.list.getLast? with
        | none =>
          exfalso
          rw [List.getLast?_eq_none_iff] at hlast
          rw [hlast] at hfull
          simp only [List.length_nil] at hfull
          have := inv.capPos
          omega
        | some p =>
          have hkl : k ∉ akeys l.list := fun hc => by
            have := alookup_isSome_of_mem_akeys hc
            rw [hl] at this
            exact Bool.noConfusion this
          have hsub : ∀ x ∈ akeys l.list.dropLast, x ∈ akeys l.list := by
            intro x hx
            simp only [akeys] at hx ⊢
            obtain ⟨w, hw1, hw2⟩ := List.mem_map.mp hx
            exact List.mem_map.mpr ⟨w, List.dropLast_subset _ hw1, hw2⟩
          refine ⟨?_, ?_, inv.capPos⟩
          · simp only [akeys, List.map_cons, List.nodup_cons]
            constructor
            · intro hc
              exact hkl (hsub k hc)
            · have hnd : (akeys l.list).Nodup := inv.nodupKeys
              have : (akeys l.list.dropLast).Nodup := by
                simp only [akeys] at hnd ⊢
                rw [List.dropLast_eq_take, List.map_take]
                exact hnd.sublist (List.take_sublist _ _)
              simpa [akeys] using this
          · simp only [List.length_cons]
            have hlen : l.list.dropLast.length = l.list.length - 1 := by
              simp [List.length_dropLast]
            have hpos : 1 ≤ l.list.length := by
              cases hq : l.list with
              | nil => rw [hq] at hlast; simp at hlast
              | cons a b => simp [hq]
            have := inv.lenLe
            omega
      · rw [if_neg hfull]
        refine ⟨?_, ?_, inv.capPos⟩
        · simp only [akeys, List.map_cons, List.nodup_cons]
          refine ⟨fun hc => ?_, inv.nodupKeys⟩
          have := alookup_isSome_of_mem_akeys hc
          rw [hl] at this
          exact Bool.noConfusion this
        · simp only [List.length_cons]
          omega
  | del k =>
    show LRUInv (lruDelete l k)
    rw [lruDelete]
    cases hl : alookup l.list k with
    | none => exact inv
    | some v =>
      refine ⟨nodup_akeys_aerase k inv.nodupKeys, ?_, inv.capPos⟩
      calc (aerase l.list k).length ≤ l.list.length := length_aerase_le _ _
        _ ≤ l.capacity := inv.lenLe
  | clear =>
    exact ⟨List.nodup_nil, by simp [lruStep, lruClear], inv.capPos⟩

theorem lruInv_run {l : LRUCache K V} (inv : LRUInv l)
    (ops : List (COp K V)) : LRUInv (lruRun l ops) := by
  induction ops generalizing l with
  | nil => exact inv
  | cons op rest ih => exact ih (lruInv_step inv op)

/-!
LFU cache (src/cache/lfu_cache.go).  The Go state is
cache : map[K]*lfuNode (key, value, freq, elem), freqMap : map[int]*list.List
of nodes sharing a frequency (PushBack appends, Front is the bucket head),
minFreq and capacity.  A node is identified by its key (keys are unique in
the cache map), so the model stores cache as key ↦ (value, freq) and each
frequency bucket as the front-to-back list of its keys; the node's elem
pointer is recovered as the unique position of its key in its bucket.
-/

structure LFUCache (K V : Type) where
  cache : List (K × V × Nat)
  freqMap : List (Nat × List K)
  minFreq : Nat
  capacity : Nat

/-- NewLFUCache: fails iff capacity <= 0; minFreq starts at int zero. -/
def lfuNew (K V : Type) (capacity : Int) : Option (LFUCache K V) :=
  if capacity ≤ 0 then none
  else some { cache := [], freqMap := [], minFreq := 0, capacity := capacity.toNat }

/-- LFUCache.updateFreq: remove the node from its old frequency bucket
(advancing minFreq when the emptied old bucket was the minimum one),
increment its frequency, and append it at the back of the bucket for the
new frequency (creating that bucket if absent). -/
def updateFreq (l : LFUCache K V) (k : K) : LFUCache K V :=
  match alookup l.cache k with
  | none => l
  | some (v, f) =>
    let cache1 := aset l.cache k (v, f + 1)
    let oldB := (alookup l.freqMap f).getD []
    let oldB1 := lerase oldB k
    let fm1 := if oldB1 = [] then aerase l.freqMap f else aset l.freqMap f oldB1
    let minF1 :=
      if oldB1 = [] then (if f = l.minFreq then l.minFreq + 1 else l.minFreq)
      else l.minFreq
    let newB := (alookup fm1 (f + 1)).getD []
    { cache := cache1, freqMap := aset fm1 (f + 1) (newB ++ [k]),
      minFreq := minF1, capacity := l.capacity }

/-- LFUCache.evict: remove the front (oldest-within-frequency) node of the
bucket at minFreq and delete it from the cache map; delete the bucket when
it empties.  A nil or empty bucket makes the call return without evicting. -/
def lfuEvict (l : LFUCache K V) : LFUCache K V :=
  match alookup l.freqMap l.minFreq with
  | none => l
  | some [] => l
  | some (k0 :: rest) =>
    let fm1 := if rest = [] then aerase l.freqMap l.minFreq
               else aset l.freqMap l.minFreq rest
    { l with cache := aerase l.cache k0, freqMap := fm1 }

/-- LFUCache.Get: on a hit, updateFreq then return the node value. -/
def lfuGet (l : LFUCache K V) (k : K) : Option V × LFUCache K V :=
  match alookup l.cache k with
  | none => (none, l)
  | some (v, _) => (some v, updateFreq l k)

/-- LFUCache.Set: on an existing key store the new value and updateFreq; on
a new key evict when len(cache) >= capacity, then insert the node at
frequency 1 (appended at the back of bucket 1) and reset minFreq to 1. -/
def lfuSet (l : LFUCache K V) (k : K) (v : V) : LFUCache K V :=
  match alookup l.cache k with
  | some (_, f) => updateFreq { l with cache := aset l.cache k (v, f) } k
  | none =>
    let l1 := if l.cache.length ≥ l.capacity then lfuEvict l else l
    let b1 := (alookup l1.freqMap 1).getD []
    { cache := aset l1.cache k (v, 1),
      freqMap := aset l1.freqMap 1 (b1 ++ [k]),
      minFreq := 1, capacity := l.capacity }

/-- LFUCache.Delete: remove the node from its frequency bucket (advancing
minFreq by one when the emptied bucket was the minimum one) and from the
cache map. -/
def lfuDelete (l : LFUCache K V) (k : K) : LFUCache K V :=
  match alookup l.cache k with
  | none => l
  | some (_, f) =>
    let b := (alookup l.freqMap f).getD []
    let b1 := lerase b k
    let fm1 := if b1 = [] then aerase l.freqMap f else aset l.freqMap f b1
    let minF1 :=
      if b1 = [] then (if f = l.minFreq then l.minFreq + 1 else l.minFreq)
      else l.minFreq
    { cache := aerase l.cache k, freqMap := fm1, minFreq := minF1,
      capacity := l.capacity }

/-- LFUCache.Len: len(cache). -/
def lfuLen (l : LFUCache K V) : Nat := l.cache.length

/-- LFUCache.Clear: reset everything, minFreq to 0. -/
def lfuClear (l : LFUCache K V) : LFUCache K V :=
  { cache := [], freqMap := [], minFreq := 0, capacity := l.capacity }

/-- One LFU operation. -/
def lfuStep (l : LFUCache K V) : COp K V → LFUCache K V
  | .get k => (lfuGet l k).2
  | .set k v => lfuSet l k v
  | .del k => lfuDelete l k
  | .clear => lfuClear l

/-- A whole client session against one LFU cache instance. -/
def lfuRun (l : LFUCache K V) (ops : List (COp K V)) : LFUCache K V :=
  ops.foldl lfuStep l

theorem mem_lerase_iff {l : List K} {k x : K} (h : l.Nodup) :
    x ∈ lerase l k ↔ x ∈ l ∧ x ≠ k := by
  constructor
  · intro hx
    refine ⟨lerase_subset _ _ _ hx, fun hc => ?_⟩
    subst hc
    exact not_mem_lerase h hx
  · intro ⟨hx, hne⟩
    exact mem_lerase_of_ne hx hne

/-- k is a member of the frequency-f bucket. -/
def inBucket (l : LFUCache K V) (k : K) (f : Nat) : Prop :=
  ∃ b, alookup l.freqMap f = some b ∧ k ∈ b

/-- Well-formedness of an LFU state, as maintained by the code from
construction: buckets hold exactly the keys of their frequency, in nodup
non-nil lists; frequencies are at least 1 and at least minFreq; the size
respects the capacity; and in a full state the bucket at minFreq is live
(minFreq may dangle only in non-full states, via Delete). -/
structure LFUInv (l : LFUCache K V) : Prop where
  nodupKeys : (akeys l.cache).Nodup
  nodupFreqs : (akeys l.freqMap).Nodup
  bucketsNonempty : ∀ f b, alookup l.freqMap f = some b → b ≠ []
  bucketsNodup : ∀ f b, alookup l.freqMap f = some b → b.Nodup
  corr : ∀ k f, inBucket l k f ↔ ∃ v, alookup l.cache k = some (v, f)
  freqPos : ∀ k v f, alookup l.cache k = some (v, f) → 1 ≤ f
  minLe : ∀ k v f, alookup l.cache k = some (v, f) → l.minFreq ≤ f
  lenLe : l.cache.length ≤ l.capacity
  capPos : 1 ≤ l.capacity
  fullMin : l.cache.length = l.capacity →
    ∃ k v, alookup l.cache k = some (v, l.minFreq)

theorem lfuInv_new {K V : Type} [DecidableEq K] {c : Int}
    {l : LFUCache K V} (h : lfuNew K V c = some l) : LFUInv l := by
  rw [lfuNew] at h
  by_cases hc : c ≤ 0
  · rw [if_pos hc] at h
    exact Option.noConfusion h
  · rw [if_neg hc] at h
    obtain rfl := Option.some.inj h
    refine ⟨List.nodup_nil, List.nodup_nil, ?_, ?_, ?_, ?_, ?_, ?_, ?_, ?_⟩
    · intro f b hb
      exact Option.noConfusion hb
    · intro f b hb
      exact Option.noConfusion hb
    · intro k f
      constructor
      · intro ⟨b, hb, _⟩
        exact Option.noConfusion hb
      · intro ⟨v, hv⟩
        exact Option.noConfusion hv
    · intro k v f hv
      exact Option.noConfusion hv
    · intro k v f hv
      exact Option.noConfusion hv
    · simp
    · simp only []
      omega
    · intro hfull
      simp only [List.length_nil] at hfull
      omega

theorem lfuInv_updateFreq {l : LFUCache K V} (inv : LFUInv l) (k : K) :
    LFUInv (updateFreq l k) := by
  cases hkf : alookup l.cache k with
  | none =>
    rw [updateFreq, hkf]
    exact inv
  | some p =>
    obtain ⟨v, f⟩ := p
    obtain ⟨oldB, hb, hkb⟩ := (inv.corr k f).mpr ⟨v, hkf⟩
    have hBnd : oldB.Nodup := inv.bucketsNodup f oldB hb
    have hne1 : f + 1 ≠ f := by omega
    rw [updateFreq, hkf]
    simp only [hb, Option.getD_some]
    -- the new bucket for frequency f+1 is read after the old bucket surgery,
    -- but frequencies f and f+1 differ, so it is the pre-state bucket
    have hnewB : ∀ fm1alt : List (Nat × List K),
        (fm1alt = aerase l.freqMap f ∨ fm1alt = aset l.freqMap f (lerase oldB k)) →
        alookup fm1alt (f + 1) = alookup l.freqMap (f + 1) := by
      intro fm1alt hfm
      rcases hfm with rfl | rfl
      · exact alookup_aerase_ne _ hne1
      · exact alookup_aset_ne _ _ hne1
    have hkNewB : ∀ nb, alookup l.freqMap (f + 1) = some nb → k ∉ nb := by
      intro nb hnb hc
      obtain ⟨v', hv'⟩ := (inv.corr k (f + 1)).mp ⟨nb, hnb, hc⟩
      rw [hkf] at hv'
      obtain ⟨-, hf⟩ := Prod.mk.injEq .. ▸ Option.some.inj hv'
      exact hne1 hf.symm
    by_cases hE : lerase oldB k = []
    · -- the old bucket empties: it is deleted and minFreq may be bumped
      simp only [if_pos hE]
      have hfm1 : alookup (aerase l.freqMap f) (f + 1) = alookup l.freqMap (f + 1) :=
        alookup_aerase_ne _ hne1
      -- membership in the final frequency map
      have hfmFinal : ∀ g, alookup (aset (aerase l.freqMap f) (f + 1)
          (((alookup l.freqMap (f + 1)).getD []) ++ [k])) g =
          if g = f + 1 then some (((alookup l.freqMap (f + 1)).getD []) ++ [k])
          else if g = f then none else alookup l.freqMap g := by
        intro g
        by_cases hg1 : g = f + 1
        · subst hg1
          rw [if_pos rfl, alookup_aset_self]
        · rw [if_neg hg1, alookup_aset_ne _ _ hg1]
          by_cases hgf : g = f
          · subst hgf
            rw [if_pos rfl, alookup_aerase_self _ inv.nodupFreqs]
          · rw [if_neg hgf, alookup_aerase_ne _ hgf]
      rw [hfm1]
      have hcache : ∀ k', alookup (aset l.cache k (v, f + 1)) k' =
          if k' = k then some (v, f + 1) else alookup l.cache k' := by
        intro k'
        by_cases hk' : k' = k
        · subst hk'
          rw [if_pos rfl, alookup_aset_self]
        · rw [if_neg hk', alookup_aset_ne _ _ hk']
      refine ⟨?_, ?_, ?_, ?_, ?_, ?_, ?_, ?_, inv.capPos, ?_⟩
      · rw [akeys_aset_of_lookup_some (v, f + 1) (Option.isSome_iff_exists.mpr ⟨_, hkf⟩)]
        exact inv.nodupKeys
      · exact nodup_akeys_aset _ _ (nodup_akeys_aerase _ inv.nodupFreqs)
      · intro g b hgb
        rw [hfmFinal g] at hgb
        by_cases hg1 : g = f + 1
        · rw [if_pos hg1] at hgb
          obtain rfl := Option.some.inj hgb
          simp
        · rw [if_neg hg1] at hgb
          by_cases hgf : g = f
          · rw [if_pos hgf] at hgb
            exact Option.noConfusion hgb
          · rw [if_neg hgf] at hgb
            exact inv.bucketsNonempty g b hgb
      · intro g b hgb
        rw [hfmFinal g] at hgb
        by_cases hg1 : g = f + 1
        · rw [if_pos hg1] at hgb
          obtain rfl := Option.some.inj hgb
          cases hnb : alookup l.freqMap (f + 1) with
          | none => simp [hnb]
          | some nb =>
            simp only [hnb, Option.getD_some]
            rw [List.nodup_append]
            refine ⟨inv.bucketsNodup _ _ hnb, List.nodup_singleton k, ?_⟩
            intro a ha hb'
            obtain rfl := List.mem_singleton.mp hb'
            exact hkNewB nb hnb ha
        · rw [if_neg hg1] at hgb
          by_cases hgf : g = f
          · rw [if_pos hgf] at hgb
            exact Option.noConfusion hgb
          · rw [if_neg hgf] at hgb
            exact inv.bucketsNodup g b hgb
      · intro k' f'
        constructor
        · intro ⟨b, hgb, hk'b⟩
          rw [hfmFinal f'] at hgb
          rw [hcache k']
          by_cases hg1 : f' = f + 1
          · subst hg1
            rw [if_pos rfl] at hgb
            obtain rfl := Option.some.inj hgb
            rcases List.mem_append.mp hk'b with hmem | hmem
            · cases hnb : alookup l.freqMap (f + 1) with
              | none => rw [hnb] at hmem; exact absurd hmem (List.not_mem_nil _)
              | some nb =>
                rw [hnb, Option.getD_some] at hmem
                obtain ⟨v', hv'⟩ := (inv.corr k' (f + 1)).mp ⟨nb, hnb, hmem⟩
                have hk'k : k' ≠ k := fun hc => hkNewB nb hnb (hc ▸ hmem)
                rw [if_neg hk'k]
                exact ⟨v', hv'⟩
            · obtain rfl := List.mem_singleton.mp hmem
              rw [if_pos rfl]
              exact ⟨v, rfl⟩
          · rw [if_neg hg1] at hgb
            by_cases hgf : f' = f
            · rw [if_pos hgf] at hgb
              exact Option.noConfusion hgb
            · rw [if_neg hgf] at hgb
              obtain ⟨v', hv'⟩ := (inv.corr k' f').mp ⟨b, hgb, hk'b⟩
              have hk'k : k' ≠ k := fun hc => by
                subst hc
                rw [hkf] at hv'
                simp only [Option.some.injEq, Prod.mk.injEq] at hv'
                exact hgf hv'.2.symm
              rw [if_neg hk'k]
              exact ⟨v', hv'⟩
        · intro ⟨v', hv'⟩
          rw [hcache k'] at hv'
          by_cases hk'k : k' = k
          · subst hk'k
            rw [if_pos rfl] at hv'
            simp only [Option.some.injEq, Prod.mk.injEq] at hv'
            obtain hf' : f' = f + 1 := hv'.2.symm
            subst hf'
            exact ⟨_, by rw [hfmFinal, if_pos rfl], List.mem_append.mpr (Or.inr (List.mem_singleton.mpr rfl))⟩
          · rw [if_neg hk'k] at hv'
            obtain ⟨b, hgb, hk'b⟩ := (inv.corr k' f').mpr ⟨v', hv'⟩
            by_cases hg1 : f' = f + 1
            · subst hg1
              refine ⟨_, by rw [hfmFinal, if_pos rfl], ?_⟩
              refine List.mem_append.mpr (Or.inl ?_)
              rw [hgb, Option.getD_some]
              exact hk'b
            · by_cases hgf : f' = f
              · subst hgf
                exfalso
                rw [hb] at hgb
                obtain rfl := Option.some.inj hgb
                have : k' ∈ lerase oldB k := mem_lerase_of_ne hk'b hk'k
                rw [hE] at this
                exact List.not_mem_nil _ this
              · exact ⟨b, by rw [hfmFinal, if_neg hg1, if_neg hgf]; exact hgb, hk'b⟩
      · intro k' v' f' hv'
        rw [hcache k'] at hv'
        by_cases hk'k : k' = k
        · rw [if_pos hk'k] at hv'
          simp only [Option.some.injEq, Prod.mk.injEq] at hv'
          obtain hf' : f' = f + 1 := hv'.2.symm
          omega
        · rw [if_neg hk'k] at hv'
          exact inv.freqPos k' v' f' hv'
      · intro k' v' f' hv'
        rw [hcache k'] at hv'
        by_cases hfmin : f = l.minFreq
        · rw [if_pos hfmin]
          show l.minFreq + 1 ≤ f'
          by_cases hk'k : k' = k
          · rw [if_pos hk'k] at hv'
            simp only [Option.some.injEq, Prod.mk.injEq] at hv'
            obtain hf' : f' = f + 1 := hv'.2.symm
            omega
          · rw [if_neg hk'k] at hv'
            have hge := inv.minLe k' v' f' hv'
            rcases Nat.lt_or_ge l.minFreq f' with h1 | h1
            · omega
            · have hf' : f' = l.minFreq := by omega
              subst hf'
              exfalso
              obtain ⟨b, hgb, hk'b⟩ := (inv.corr k' l.minFreq).mpr ⟨v', hv'⟩
              rw [← hfmin, hb] at hgb
              obtain rfl := Option.some.inj hgb
              have : k' ∈ lerase oldB k := mem_lerase_of_ne hk'b hk'k
              rw [hE] at this
              exact List.not_mem_nil _ this
        · rw [if_neg hfmin]
          show l.minFreq ≤ f'
          by_cases hk'k : k' = k
          · rw [if_pos hk'k] at hv'
            simp only [Option.some.injEq, Prod.mk.injEq] at hv'
            obtain hf' : f' = f + 1 := hv'.2.symm
            have := inv.minLe k v f hkf
            omega
          · rw [if_neg hk'k] at hv'
            exact inv.minLe k' v' f' hv'
      · rw [length_aset_of_lookup_some _ (by simp [hkf])]
        exact inv.lenLe
      · intro hfull
        rw [length_aset_of_lookup_some _ (by simp [hkf])] at hfull
        by_cases hfmin : f = l.minFreq
        · rw [if_pos hfmin]
          exact ⟨k, v, by rw [hcache k, if_pos rfl, hfmin]⟩
        · rw [if_neg hfmin]
          obtain ⟨k0, v0, hk0⟩ := inv.fullMin hfull
          have hk0k : k0 ≠ k := fun hc => by
            subst hc
            rw [hkf] at hk0
            simp only [Option.some.injEq, Prod.mk.injEq] at hk0
            exact hfmin hk0.2
          exact ⟨k0, v0, by rw [hcache k0, if_neg hk0k]; exact hk0⟩
    · -- the old bucket keeps other keys: it is rewritten, minFreq unchanged
      simp only [if_neg hE]
      have hfm1 : alookup (aset l.freqMap f (lerase oldB k)) (f + 1) =
          alookup l.freqMap (f + 1) := alookup_aset_ne _ _ hne1
      have hfmFinal : ∀ g, alookup (aset (aset l.freqMap f (lerase oldB k)) (f + 1)
          (((alookup l.freqMap (f + 1)).getD []) ++ [k])) g =
          if g = f + 1 then some (((alookup l.freqMap (f + 1)).getD []) ++ [k])
          else if g = f then some (lerase oldB k) else alookup l.freqMap g := by
        intro g
        by_cases hg1 : g = f + 1
        · subst hg1
          rw [if_pos rfl, alookup_aset_self]
        · rw [if_neg hg1, alookup_aset_ne _ _ hg1]
          by_cases hgf : g = f
          · subst hgf
            rw [if_pos rfl, alookup_aset_self]
          · rw [if_neg hgf, alookup_aset_ne _ _ hgf]
      rw [hfm1]
      have hcache : ∀ k', alookup (aset l.cache k (v, f + 1)) k' =
          if k' = k then some (v, f + 1) else alookup l.cache k' := by
        intro k'
        by_cases hk' : k' = k
        · subst hk'
          rw [if_pos rfl, alookup_aset_self]
        · rw [if_neg hk', alookup_aset_ne _ _ hk']
      refine ⟨?_, ?_, ?_, ?_, ?_, ?_, ?_, ?_, inv.capPos, ?_⟩
      · rw [akeys_aset_of_lookup_some (v, f + 1) (Option.isSome_iff_exists.mpr ⟨_, hkf⟩)]
        exact inv.nodupKeys
      · exact nodup_akeys_aset _ _ (nodup_akeys_aset _ _ inv.nodupFreqs)
      · intro g b hgb
        rw [hfmFinal g] at hgb
        by_cases hg1 : g = f + 1
        · rw [if_pos hg1] at hgb
          obtain rfl := Option.some.inj hgb
          simp
        · rw [if_neg hg1] at hgb
          by_cases hgf : g = f
          · rw [if_pos hgf] at hgb
            obtain rfl := Option.some.inj hgb
            exact hE
          · rw [if_neg hgf] at hgb
            exact inv.bucketsNonempty g b hgb
      · intro g b hgb
        rw [hfmFinal g] at hgb
        by_cases hg1 : g = f + 1
        · rw [if_pos hg1] at hgb
          obtain rfl := Option.some.inj hgb
          cases hnb : alookup l.freqMap (f + 1) with
          | none => simp [hnb]
          | some nb =>
            simp only [hnb, Option.getD_some]
            rw [List.nodup_append]
            refine ⟨inv.bucketsNodup _ _ hnb, List.nodup_singleton k, ?_⟩
            intro a ha hb'
            obtain rfl := List.mem_singleton.mp hb'
            exact hkNewB nb hnb ha
        · rw [if_neg hg1] at hgb
          by_cases hgf : g = f
          · rw [if_pos hgf] at hgb
            obtain rfl := Option.some.inj hgb
            exact lerase_nodup k hBnd
          · rw [if_neg hgf] at hgb
            exact inv.bucketsNodup g b hgb
      · intro k' f'
        constructor
        · intro ⟨b, hgb, hk'b⟩
          rw [hfmFinal f'] at hgb
          rw [hcache k']
          by_cases hg1 : f' = f + 1
          · subst hg1
            rw [if_pos rfl] at hgb
            obtain rfl := Option.some.inj hgb
            rcases List.mem_append.mp hk'b with hmem | hmem
            · cases hnb : alookup l.freqMap (f + 1) with
              | none => rw [hnb] at hmem; exact absurd hmem (List.not_mem_nil _)
              | some nb =>
                rw [hnb, Option.getD_some] at hmem
                obtain ⟨v', hv'⟩ := (inv.corr k' (f + 1)).mp ⟨nb, hnb, hmem⟩
                have hk'k : k' ≠ k := fun hc => hkNewB nb hnb (hc ▸ hmem)
                rw [if_neg hk'k]
                exact ⟨v', hv'⟩
            · obtain rfl := List.mem_singleton.mp hmem
              rw [if_pos rfl]
              exact ⟨v, rfl⟩
          · rw [if_neg hg1] at hgb
            by_cases hgf : f' = f
            · rw [if_pos hgf] at hgb
              obtain rfl := Option.some.inj hgb
              have hk'k : k' ≠ k := (mem_lerase_iff hBnd).mp hk'b |>.2
              have hk'old : k' ∈ oldB := (mem_lerase_iff hBnd).mp hk'b |>.1
              obtain ⟨v', hv'⟩ := (inv.corr k' f).mp ⟨oldB, hb, hk'old⟩
              rw [if_neg hk'k]
              exact ⟨v', by rw [hgf]; exact hv'⟩
            · rw [if_neg hgf] at hgb
              obtain ⟨v', hv'⟩ := (inv.corr k' f').mp ⟨b, hgb, hk'b⟩
              have hk'k : k' ≠ k := fun hc => by
                subst hc
                rw [hkf] at hv'
                simp only [Option.some.injEq, Prod.mk.injEq] at hv'
                exact hgf hv'.2.symm
              rw [if_neg hk'k]
              exact ⟨v', hv'⟩
        · intro ⟨v', hv'⟩
          rw [hcache k'] at hv'
          by_cases hk'k : k' = k
          · subst hk'k
            rw [if_pos rfl] at hv'
            simp only [Option.some.injEq, Prod.mk.injEq] at hv'
            obtain hf' : f' = f + 1 := hv'.2.symm
            subst hf'
            exact ⟨_, by rw [hfmFinal, if_pos rfl], List.mem_append.mpr (Or.inr (List.mem_singleton.mpr rfl))⟩
          · rw [if_neg hk'k] at hv'
            obtain ⟨b, hgb, hk'b⟩ := (inv.corr k' f').mpr ⟨v', hv'⟩
            by_cases hg1 : f' = f + 1
            · subst hg1
              refine ⟨_, by rw [hfmFinal, if_pos rfl], ?_⟩
              refine List.mem_append.mpr (Or.inl ?_)
              rw [hgb, Option.getD_some]
              exact hk'b
            · by_cases hgf : f' = f
              · subst hgf
                rw [hb] at hgb
                obtain rfl := Option.some.inj hgb
                exact ⟨lerase oldB k, by rw [hfmFinal, if_neg hg1, if_pos rfl],
                  mem_lerase_of_ne hk'b hk'k⟩
              · exact ⟨b, by rw [hfmFinal, if_neg hg1, if_neg hgf]; exact hgb, hk'b⟩
      · intro k' v' f' hv'
        rw [hcache k'] at hv'
        by_cases hk'k : k' = k
        · rw [if_pos hk'k] at hv'
          simp only [Option.some.injEq, Prod.mk.injEq] at hv'
          obtain hf' : f' = f + 1 := hv'.2.symm
          omega
        · rw [if_neg hk'k] at hv'
          exact inv.freqPos k' v' f' hv'
      · intro k' v' f' hv'
        rw [hcache k'] at hv'
        show l.minFreq ≤ f'
        by_cases hk'k : k' = k
        · rw [if_pos hk'k] at hv'
          simp only [Option.some.injEq, Prod.mk.injEq] at hv'
          obtain hf' : f' = f + 1 := hv'.2.symm
          have := inv.minLe k v f hkf
          omega
        · rw [if_neg hk'k] at hv'
          exact inv.minLe k' v' f' hv'
      · rw [length_aset_of_lookup_some _ (by simp [hkf])]
        exact inv.lenLe
      · intro hfull
        rw [length_aset_of_lookup_some _ (by simp [hkf])] at hfull
        by_cases hfmin : f = l.minFreq
        · obtain ⟨k1, hk1mem⟩ := List.exists_mem_of_ne_nil _ hE
          have hk1 : k1 ∈ oldB ∧ k1 ≠ k := (mem_lerase_iff hBnd).mp hk1mem
          obtain ⟨v1, hv1⟩ := (inv.corr k1 f).mp ⟨oldB, hb, hk1.1⟩
          refine ⟨k1, v1, ?_⟩
          rw [hcache k1, if_neg hk1.2, hv1, hfmin]
        · obtain ⟨k0, v0, hk0⟩ := inv.fullMin hfull
          have hk0k : k0 ≠ k := fun hc => by
            subst hc
            rw [hkf] at hk0
            simp only [Option.some.injEq, Prod.mk.injEq] at hk0
            exact hfmin hk0.2
          exact ⟨k0, v0, by rw [hcache k0, if_neg hk0k]; exact hk0⟩

theorem lfuEvict_capacity (l : LFUCache K V) :
    (lfuEvict l).capacity = l.capacity := by
  rw [lfuEvict]
  cases alookup l.freqMap l.minFreq with
  | none => rfl
  | some b =>
    cases b with
    | nil => rfl
    | cons k0 rest => rfl

/-- In a full well-formed state the minFreq bucket is live, and evict
removes exactly its front key, which carries frequency minFreq. -/
theorem lfuEvict_full_spec {l : LFUCache K V} (inv : LFUInv l)
    (hfull : l.cache.length = l.capacity) :
    ∃ k0 rest v0, alookup l.freqMap l.minFreq = some (k0 :: rest) ∧
      alookup l.cache k0 = some (v0, l.minFreq) ∧
      lfuEvict l = { cache := aerase l.cache k0,
                     freqMap := if rest = [] then aerase l.freqMap l.minFreq
                                else aset l.freqMap l.minFreq rest,
                     minFreq := l.minFreq, capacity := l.capacity } := by
  obtain ⟨ka, va, hka⟩ := inv.fullMin hfull
  obtain ⟨b, hbm, hkab⟩ := (inv.corr ka l.minFreq).mpr ⟨va, hka⟩
  cases hbs : b with
  | nil =>
    exact absurd (hbs ▸ hbm) (fun hc => inv.bucketsNonempty _ _ hc rfl)
  | cons k0 rest =>
    rw [hbs] at hbm
    obtain ⟨v0, hk0⟩ := (inv.corr k0 l.minFreq).mp ⟨k0 :: rest, hbm, List.mem_cons_self _ _⟩
    refine ⟨k0, rest, v0, hbm, hk0, ?_⟩
    simp only [lfuEvict, hbm]

theorem lfuInv_evict_full {l : LFUCache K V} (inv : LFUInv l)
    (hfull : l.cache.length = l.capacity) :
    LFUInv (lfuEvict l) ∧ (lfuEvict l).cache.length + 1 = l.cache.length := by
  obtain ⟨k0, rest, v0, hbm, hk0, heq⟩ := lfuEvict_full_spec inv hfull
  have hbnd : (k0 :: rest).Nodup := inv.bucketsNodup _ _ hbm
  have hk0rest : k0 ∉ rest := (List.nodup_cons.mp hbnd).1
  have hrestnd : rest.Nodup := (List.nodup_cons.mp hbnd).2
  rw [heq]
  have hcache : ∀ k', alookup (aerase l.cache k0) k' =
      if k' = k0 then none else alookup l.cache k' := by
    intro k'
    by_cases hk' : k' = k0
    · subst hk'
      rw [if_pos rfl, alookup_aerase_self _ inv.nodupKeys]
    · rw [if_neg hk', alookup_aerase_ne _ hk']
  have hfm : ∀ g, alookup (if rest = [] then aerase l.freqMap l.minFreq
      else aset l.freqMap l.minFreq rest) g =
      if g = l.minFreq then (if rest = [] then none else some rest)
      else alookup l.freqMap g := by
    intro g
    by_cases hrest : rest = []
    · rw [if_pos hrest, if_pos hrest]
      by_cases hg : g = l.minFreq
      · subst hg
        rw [if_pos rfl, alookup_aerase_self _ inv.nodupFreqs]
      · rw [if_neg hg, alookup_aerase_ne _ hg]
    · rw [if_neg hrest, if_neg hrest]
      by_cases hg : g = l.minFreq
      · subst hg
        rw [if_pos rfl, alookup_aset_self]
      · rw [if_neg hg, alookup_aset_ne _ _ hg]
  constructor
  · refine ⟨?_, ?_, ?_, ?_, ?_, ?_, ?_, ?_, inv.capPos, ?_⟩
    · exact nodup_akeys_aerase _ inv.nodupKeys
    · by_cases hrest : rest = []
      · simp only [if_pos hrest]
        exact nodup_akeys_aerase _ inv.nodupFreqs
      · simp only [if_neg hrest]
        exact nodup_akeys_aset _ _ inv.nodupFreqs
    · intro g b hgb
      rw [hfm g] at hgb
      by_cases hg : g = l.minFreq
      · rw [if_pos hg] at hgb
        by_cases hrest : rest = []
        · rw [if_pos hrest] at hgb
          exact Option.noConfusion hgb
        · rw [if_neg hrest] at hgb
          obtain rfl := Option.some.inj hgb
          exact hrest
      · rw [if_neg hg] at hgb
        exact inv.bucketsNonempty g b hgb
    · intro g b hgb
      rw [hfm g] at hgb
      by_cases hg : g = l.minFreq
      · rw [if_pos hg] at hgb
        by_cases hrest : rest = []
        · rw [if_pos hrest] at hgb
          exact Option.noConfusion hgb
        · rw [if_neg hrest] at hgb
          obtain rfl := Option.some.inj hgb
          exact hrestnd
      · rw [if_neg hg] at hgb
        exact inv.bucketsNodup g b hgb
    · intro k' f'
      constructor
      · intro ⟨b, hgb, hk'b⟩
        rw [hfm f'] at hgb
        rw [hcache k']
        by_cases hg : f' = l.minFreq
        · rw [if_pos hg] at hgb
          by_cases hrest : rest = []
          · rw [if_pos hrest] at hgb
            exact Option.noConfusion hgb
          · rw [if_neg hrest] at hgb
            obtain rfl := Option.some.inj hgb
            have hk'k0 : k' ≠ k0 := fun hc => hk0rest (hc ▸ hk'b)
            rw [if_neg hk'k0]
            exact (inv.corr k' f').mp ⟨k0 :: rest, hg ▸ hbm, List.mem_cons_of_mem _ hk'b⟩
        · rw [if_neg hg] at hgb
          obtain ⟨v', hv'⟩ := (inv.corr k' f').mp ⟨b, hgb, hk'b⟩
          have hk'k0 : k' ≠ k0 := fun hc => by
            subst hc
            rw [hk0] at hv'
            simp only [Option.some.injEq, Prod.mk.injEq] at hv'
            exact hg hv'.2.symm
          rw [if_neg hk'k0]
          exact ⟨v', hv'⟩
      · intro ⟨v', hv'⟩
        rw [hcache k'] at hv'
        by_cases hk'k0 : k' = k0
        · rw [if_pos hk'k0] at hv'
          exact Option.noConfusion hv'
        · rw [if_neg hk'k0] at hv'
          obtain ⟨b, hgb, hk'b⟩ := (inv.corr k' f').mpr ⟨v', hv'⟩
          by_cases hg : f' = l.minFreq
          · rw [hg, hbm] at hgb
            obtain rfl := Option.some.inj hgb
            have hk'rest : k' ∈ rest := by
              rcases List.mem_cons.mp hk'b with h1 | h1
              · exact absurd h1 hk'k0
              · exact h1
            have hrest : rest ≠ [] := fun hc => by
              rw [hc] at hk'rest
              exact List.not_mem_nil _ hk'rest
            exact ⟨rest, by rw [hfm f', if_pos hg, if_neg hrest], hk'rest⟩
          · exact ⟨b, by rw [hfm f', if_neg hg]; exact hgb, hk'b⟩
    · intro k' v' f' hv'
      rw [hcache k'] at hv'
      by_cases hk'k0 : k' = k0
      · rw [if_pos hk'k0] at hv'
        exact Option.noConfusion hv'
      · rw [if_neg hk'k0] at hv'
        exact inv.freqPos k' v' f' hv'
    · intro k' v' f' hv'
      rw [hcache k'] at hv'
      show l.minFreq ≤ f'
      by_cases hk'k0 : k' = k0
      · rw [if_pos hk'k0] at hv'
        exact Option.noConfusion hv'
      · rw [if_neg hk'k0] at hv'
        exact inv.minLe k' v' f' hv'
    · show (aerase l.cache k0).length ≤ l.capacity
      calc (aerase l.cache k0).length ≤ l.cache.length := length_aerase_le _ _
        _ ≤ l.capacity := inv.lenLe
    · intro hfull'
      exfalso
      have hlen : (aerase l.cache k0).length + 1 = l.cache.length :=
        length_aerase_of_lookup_some (by simp [hk0])
      have hcap := inv.capPos
      simp only [] at hfull'
      omega
  · show (aerase l.cache k0).length + 1 = l.cache.length
    exact length_aerase_of_lookup_some (by simp [hk0])

/-- Value-only rewrite of an existing node (the first half of Set on an
existing key, before the updateFreq call). -/
theorem lfuInv_setValue {l : LFUCache K V} (inv : LFUInv l) {k : K} {v0 : V}
    {f : Nat} (hkf : alookup l.cache k = some (v0, f)) (v : V) :
    LFUInv { l with cache := aset l.cache k (v, f) } := by
  have hcache : ∀ k', alookup (aset l.cache k (v, f)) k' =
      if k' = k then some (v, f) else alookup l.cache k' := by
    intro k'
    by_cases hk' : k' = k
    · subst hk'
      rw [if_pos rfl, alookup_aset_self]
    · rw [if_neg hk', alookup_aset_ne _ _ hk']
  refine ⟨?_, inv.nodupFreqs, inv.bucketsNonempty, inv.bucketsNodup, ?_, ?_, ?_, ?_, inv.capPos, ?_⟩
  · rw [akeys_aset_of_lookup_some (v, f) (by simp [hkf])]
    exact inv.nodupKeys
  · intro k' f'
    rw [show inBucket { l with cache := aset l.cache k (v, f) } k' f' = inBucket l k' f' from rfl]
    rw [inv.corr k' f']
    rw [hcache k']
    by_cases hk'k : k' = k
    · subst hk'k
      rw [if_pos rfl]
      constructor
      · intro ⟨v', hv'⟩
        rw [hkf] at hv'
        simp only [Option.some.injEq, Prod.mk.injEq] at hv'
        exact ⟨v, by rw [hv'.2]⟩
      · intro ⟨v', hv'⟩
        simp only [Option.some.injEq, Prod.mk.injEq] at hv'
        exact ⟨v0, by rw [hkf, hv'.2]⟩
    · rw [if_neg hk'k]
  · intro k' v' f' hv'
    rw [hcache k'] at hv'
    by_cases hk'k : k' = k
    · rw [if_pos hk'k] at hv'
      simp only [Option.some.injEq, Prod.mk.injEq] at hv'
      obtain rfl := hv'.2
      exact inv.freqPos k v0 _ hkf
    · rw [if_neg hk'k] at hv'
      exact inv.freqPos k' v' f' hv'
  · intro k' v' f' hv'
    rw [hcache k'] at hv'
    show l.minFreq ≤ f'
    by_cases hk'k : k' = k
    · rw [if_pos hk'k] at hv'
      simp only [Option.some.injEq, Prod.mk.injEq] at hv'
      obtain rfl := hv'.2
      exact inv.minLe k v0 _ hkf
    · rw [if_neg hk'k] at hv'
      exact inv.minLe k' v' f' hv'
  · show (aset l.cache k (v, f)).length ≤ l.capacity
    rw [length_aset_of_lookup_some _ (by simp [hkf])]
    exact inv.lenLe
  · intro hfull
    show ∃ k' v', alookup (aset l.cache k (v, f)) k' = some (v', l.minFreq)
    have hfull' : l.cache.length = l.capacity := by
      have := length_aset_of_lookup_some (m := l.cache) (k := k) (v, f) (by simp [hkf])
      simp only [] at hfull
      omega
    obtain ⟨k1, v1, hk1⟩ := inv.fullMin hfull'
    by_cases hk1k : k1 = k
    · subst hk1k
      rw [hkf] at hk1
      simp only [Option.some.injEq, Prod.mk.injEq] at hk1
      exact ⟨k1, v, by rw [hcache k1, if_pos rfl, hk1.2]⟩
    · exact ⟨k1, v1, by rw [hcache k1, if_neg hk1k]; exact hk1⟩

/-- Insertion of a fresh key at frequency 1 (the tail of Set on a new key,
after any eviction). -/
theorem lfuInv_insert {l1 : LFUCache K V} {c : Nat} (inv1 : LFUInv l1)
    (k : K) (v : V) (hk : alookup l1.cache k = none)
    (hlen : l1.cache.length < c) (hcap : l1.capacity = c) :
    LFUInv { cache := aset l1.cache k (v, 1),
             freqMap := aset l1.freqMap 1 (((alookup l1.freqMap 1).getD []) ++ [k]),
             minFreq := 1, capacity := c } := by
  have hkb1 : ∀ nb, alookup l1.freqMap 1 = some nb → k ∉ nb := by
    intro nb hnb hc
    obtain ⟨v', hv'⟩ := (inv1.corr k 1).mp ⟨nb, hnb, hc⟩
    rw [hk] at hv'
    exact Option.noConfusion hv'
  have hcache : ∀ k', alookup (aset l1.cache k (v, 1)) k' =
      if k' = k then some (v, 1) else alookup l1.cache k' := by
    intro k'
    by_cases hk' : k' = k
    · subst hk'
      rw [if_pos rfl, alookup_aset_self]
    · rw [if_neg hk', alookup_aset_ne _ _ hk']
  have hfm : ∀ g, alookup (aset l1.freqMap 1 (((alookup l1.freqMap 1).getD []) ++ [k])) g =
      if g = 1 then some (((alookup l1.freqMap 1).getD []) ++ [k])
      else alookup l1.freqMap g := by
    intro g
    by_cases hg : g = 1
    · subst hg
      rw [if_pos rfl, alookup_aset_self]
    · rw [if_neg hg, alookup_aset_ne _ _ hg]
  refine ⟨?_, ?_, ?_, ?_, ?_, ?_, ?_, ?_, ?_, ?_⟩
  · rw [akeys_aset_of_lookup_none _ hk]
    have hkk : k ∉ akeys l1.cache := fun hc => by
      have := alookup_isSome_of_mem_akeys hc
      rw [hk] at this
      exact Bool.noConfusion this
    simp [List.nodup_append, inv1.nodupKeys, hkk]
  · exact nodup_akeys_aset _ _ inv1.nodupFreqs
  · intro g b hgb
    rw [hfm g] at hgb
    by_cases hg : g = 1
    · rw [if_pos hg] at hgb
      obtain rfl := Option.some.inj hgb
      simp
    · rw [if_neg hg] at hgb
      exact inv1.bucketsNonempty g b hgb
  · intro g b hgb
    rw [hfm g] at hgb
    by_cases hg : g = 1
    · rw [if_pos hg] at hgb
      obtain rfl := Option.some.inj hgb
      cases hnb : alookup l1.freqMap 1 with
      | none => simp [hnb]
      | some nb =>
        simp only [hnb, Option.getD_some]
        rw [List.nodup_append]
        refine ⟨inv1.bucketsNodup _ _ hnb, List.nodup_singleton k, ?_⟩
        intro a ha hb'
        obtain rfl := List.mem_singleton.mp hb'
        exact hkb1 nb hnb ha
    · rw [if_neg hg] at hgb
      exact inv1.bucketsNodup g b hgb
  · intro k' f'
    constructor
    · intro ⟨b, hgb, hk'b⟩
      rw [hfm f'] at hgb
      rw [hcache k']
      by_cases hg : f' = 1
      · subst hg
        rw [if_pos rfl] at hgb
        obtain rfl := Option.some.inj hgb
        rcases List.mem_append.mp hk'b with hmem | hmem
        · cases hnb : alookup l1.freqMap 1 with
          | none => rw [hnb] at hmem; exact absurd hmem (List.not_mem_nil _)
          | some nb =>
            rw [hnb, Option.getD_some] at hmem
            obtain ⟨v', hv'⟩ := (inv1.corr k' 1).mp ⟨nb, hnb, hmem⟩
            have hk'k : k' ≠ k := fun hc => hkb1 nb hnb (hc ▸ hmem)
            rw [if_neg hk'k]
            exact ⟨v', hv'⟩
        · obtain rfl := List.mem_singleton.mp hmem
          rw [if_pos rfl]
          exact ⟨v, rfl⟩
      · rw [if_neg hg] at hgb
        obtain ⟨v', hv'⟩ := (inv1.corr k' f').mp ⟨b, hgb, hk'b⟩
        have hk'k : k' ≠ k := fun hc => by
          subst hc
          rw [hk] at hv'
          exact Option.noConfusion hv'
        rw [if_neg hk'k]
        exact ⟨v', hv'⟩
    · intro ⟨v', hv'⟩
      rw [hcache k'] at hv'
      by_cases hk'k : k' = k
      · subst hk'k
        rw [if_pos rfl] at hv'
        simp only [Option.some.injEq, Prod.mk.injEq] at hv'
        obtain hf' : f' = 1 := hv'.2.symm
        subst hf'
        exact ⟨_, by rw [hfm, if_pos rfl],
          List.mem_append.mpr (Or.inr (List.mem_singleton.mpr rfl))⟩
      · rw [if_neg hk'k] at hv'
        obtain ⟨b, hgb, hk'b⟩ := (inv1.corr k' f').mpr ⟨v', hv'⟩
        by_cases hg : f' = 1
        · subst hg
          refine ⟨_, by rw [hfm, if_pos rfl], ?_⟩
          refine List.mem_append.mpr (Or.inl ?_)
          rw [hgb, Option.getD_some]
          exact hk'b
        · exact ⟨b, by rw [hfm f', if_neg hg]; exact hgb, hk'b⟩
  · intro k' v' f' hv'
    rw [hcache k'] at hv'
    by_cases hk'k : k' = k
    · rw [if_pos hk'k] at hv'
      simp only [Option.some.injEq, Prod.mk.injEq] at hv'
      omega
    · rw [if_neg hk'k] at hv'
      exact inv1.freqPos k' v' f' hv'
  · intro k' v' f' hv'
    rw [hcache k'] at hv'
    show 1 ≤ f'
    by_cases hk'k : k' = k
    · rw [if_pos hk'k] at hv'
      simp only [Option.some.injEq, Prod.mk.injEq] at hv'
      omega
    · rw [if_neg hk'k] at hv'
      exact inv1.freqPos k' v' f' hv'
  · show (aset l1.cache k (v, 1)).length ≤ c
    rw [length_aset_of_lookup_none _ hk]
    omega
  · show 1 ≤ c
    have := inv1.capPos
    omega
  · intro hfull
    exact ⟨k, v, by rw [hcache k, if_pos rfl]⟩

theorem lfuInv_set {l : LFUCache K V} (inv : LFUInv l) (k : K) (v : V) :
    LFUInv (lfuSet l k v) := by
  cases hkf : alookup l.cache k with
  | some p =>
    obtain ⟨v0, f⟩ := p
    rw [lfuSet, hkf]
    exact lfuInv_updateFreq (lfuInv_setValue inv hkf v) k
  | none =>
    rw [lfuSet, hkf]
    by_cases hfull : l.cache.length ≥ l.capacity
    · simp only [if_pos hfull]
      have hfull' : l.cache.length = l.capacity :=
        Nat.le_antisymm inv.lenLe hfull
      obtain ⟨inv1, hlen1⟩ := lfuInv_evict_full inv hfull'
      have hk1 : alookup (lfuEvict l).cache k = none := by
        obtain ⟨k0, rest, v0, hbm, hk0, heq⟩ := lfuEvict_full_spec inv hfull'
        rw [heq]
        show alookup (aerase l.cache k0) k = none
        have hkk0 : k ≠ k0 := fun hc => by
          rw [hc, hk0] at hkf
          exact Option.noConfusion hkf
        rw [alookup_aerase_ne _ hkk0]
        exact hkf
      have hcap := inv.capPos
      exact lfuInv_insert inv1 k v hk1 (by omega) (lfuEvict_capacity l)
    · simp only [if_neg hfull]
      exact lfuInv_insert inv k v hkf (by omega) rfl

theorem lfuInv_delete {l : LFUCache K V} (inv : LFUInv l) (k : K) :
    LFUInv (lfuDelete l k) := by
  cases hkf : alookup l.cache k with
  | none =>
    rw [lfuDelete, hkf]
    exact inv
  | some p =>
    obtain ⟨v, f⟩ := p
    obtain ⟨b0, hb, hkb⟩ := (inv.corr k f).mpr ⟨v, hkf⟩
    have hBnd : b0.Nodup := inv.bucketsNodup f b0 hb
    rw [lfuDelete, hkf]
    simp only [hb, Option.getD_some]
    have hcache : ∀ k', alookup (aerase l.cache k) k' =
        if k' = k then none else alookup l.cache k' := by
      intro k'
      by_cases hk' : k' = k
      · subst hk'
        rw [if_pos rfl, alookup_aerase_self _ inv.nodupKeys]
      · rw [if_neg hk', alookup_aerase_ne _ hk']
    by_cases hE : lerase b0 k = []
    · simp only [if_pos hE]
      have hfm : ∀ g, alookup (aerase l.freqMap f) g =
          if g = f then none else alookup l.freqMap g := by
        intro g
        by_cases hg : g = f
        · subst hg
          rw [if_pos rfl, alookup_aerase_self _ inv.nodupFreqs]
        · rw [if_neg hg, alookup_aerase_ne _ hg]
      refine ⟨?_, ?_, ?_, ?_, ?_, ?_, ?_, ?_, inv.capPos, ?_⟩
      · exact nodup_akeys_aerase _ inv.nodupKeys
      · exact nodup_akeys_aerase _ inv.nodupFreqs
      · intro g b hgb
        rw [hfm g] at hgb
        by_cases hg : g = f
        · rw [if_pos hg] at hgb
          exact Option.noConfusion hgb
        · rw [if_neg hg] at hgb
          exact inv.bucketsNonempty g b hgb
      · intro g b hgb
        rw [hfm g] at hgb
        by_cases hg : g = f
        · rw [if_pos hg] at hgb
          exact Option.noConfusion hgb
        · rw [if_neg hg] at hgb
          exact inv.bucketsNodup g b hgb
      · intro k' f'
        constructor
        · intro ⟨b, hgb, hk'b⟩
          rw [hfm f'] at hgb
          rw [hcache k']
          by_cases hg : f' = f
          · rw [if_pos hg] at hgb
            exact Option.noConfusion hgb
          · rw [if_neg hg] at hgb
            obtain ⟨v', hv'⟩ := (inv.corr k' f').mp ⟨b, hgb, hk'b⟩
            have hk'k : k' ≠ k := fun hc => by
              subst hc
              rw [hkf] at hv'
              simp only [Option.some.injEq, Prod.mk.injEq] at hv'
              exact hg hv'.2.symm
            rw [if_neg hk'k]
            exact ⟨v', hv'⟩
        · intro ⟨v', hv'⟩
          rw [hcache k'] at hv'
          by_cases hk'k : k' = k
          · rw [if_pos hk'k] at hv'
            exact Option.noConfusion hv'
          · rw [if_neg hk'k] at hv'
            obtain ⟨b, hgb, hk'b⟩ := (inv.corr k' f').mpr ⟨v', hv'⟩
            by_cases hg : f' = f
            · exfalso
              rw [hg, hb] at hgb
              obtain rfl := Option.some.inj hgb
              have : k' ∈ lerase b0 k := mem_lerase_of_ne hk'b hk'k
              rw [hE] at this
              exact List.not_mem_nil _ this
            · exact ⟨b, by rw [hfm f', if_neg hg]; exact hgb, hk'b⟩
      · intro k' v' f' hv'
        rw [hcache k'] at hv'
        by_cases hk'k : k' = k
        · rw [if_pos hk'k] at hv'
          exact Option.noConfusion hv'
        · rw [if_neg hk'k] at hv'
          exact inv.freqPos k' v' f' hv'
      · intro k' v' f' hv'
        rw [hcache k'] at hv'
        by_cases hfmin : f = l.minFreq
        · rw [if_pos hfmin]
          show l.minFreq + 1 ≤ f'
          by_cases hk'k : k' = k
          · rw [if_pos hk'k] at hv'
            exact Option.noConfusion hv'
          · rw [if_neg hk'k] at hv'
            have hge := inv.minLe k' v' f' hv'
            rcases Nat.lt_or_ge l.minFreq f' with h1 | h1
            · omega
            · exfalso
              have hf' : f' = l.minFreq := by omega
              obtain ⟨b, hgb, hk'b⟩ := (inv.corr k' f').mpr ⟨v', hv'⟩
              rw [hf', ← hfmin, hb] at hgb
              obtain rfl := Option.some.inj hgb
              have : k' ∈ lerase b0 k := mem_lerase_of_ne hk'b hk'k
              rw [hE] at this
              exact List.not_mem_nil _ this
        · rw [if_neg hfmin]
          show l.minFreq ≤ f'
          by_cases hk'k : k' = k
          · rw [if_pos hk'k] at hv'
            exact Option.noConfusion hv'
          · rw [if_neg hk'k] at hv'
            exact inv.minLe k' v' f' hv'
      · show (aerase l.cache k).length ≤ l.capacity
        calc (aerase l.cache k).length ≤ l.cache.length := length_aerase_le _ _
          _ ≤ l.capacity := inv.lenLe
      · intro hfull
        exfalso
        have hlen : (aerase l.cache k).length + 1 = l.cache.length :=
          length_aerase_of_lookup_some (by simp [hkf])
        have := inv.lenLe
        have := inv.capPos
        simp only [] at hfull
        omega
    · simp only [if_neg hE]
      have hfm : ∀ g, alookup (aset l.freqMap f (lerase b0 k)) g =
          if g = f then some (lerase b0 k) else alookup l.freqMap g := by
        intro g
        by_cases hg : g = f
        · subst hg
          rw [if_pos rfl, alookup_aset_self]
        · rw [if_neg hg, alookup_aset_ne _ _ hg]
      refine ⟨?_, ?_, ?_, ?_, ?_, ?_, ?_, ?_, inv.capPos, ?_⟩
      · exact nodup_akeys_aerase _ inv.nodupKeys
      · exact nodup_akeys_aset _ _ inv.nodupFreqs
      · intro g b hgb
        rw [hfm g] at hgb
        by_cases hg : g = f
        · rw [if_pos hg] at hgb
          obtain rfl := Option.some.inj hgb
          exact hE
        · rw [if_neg hg] at hgb
          exact inv.bucketsNonempty g b hgb
      · intro g b hgb
        rw [hfm g] at hgb
        by_cases hg : g = f
        · rw [if_pos hg] at hgb
          obtain rfl := Option.some.inj hgb
          exact lerase_nodup k hBnd
        · rw [if_neg hg] at hgb
          exact inv.bucketsNodup g b hgb
      · intro k' f'
        constructor
        · intro ⟨b, hgb, hk'b⟩
          rw [hfm f'] at hgb
          rw [hcache k']
          by_cases hg : f' = f
          · rw [if_pos hg] at hgb
            obtain rfl := Option.some.inj hgb
            have hk'k : k' ≠ k := ((mem_lerase_iff hBnd).mp hk'b).2
            have hk'b0 : k' ∈ b0 := ((mem_lerase_iff hBnd).mp hk'b).1
            obtain ⟨v', hv'⟩ := (inv.corr k' f).mp ⟨b0, hb, hk'b0⟩
            rw [if_neg hk'k]
            exact ⟨v', by rw [hg]; exact hv'⟩
          · rw [if_neg hg] at hgb
            obtain ⟨v', hv'⟩ := (inv.corr k' f').mp ⟨b, hgb, hk'b⟩
            have hk'k : k' ≠ k := fun hc => by
              subst hc
              rw [hkf] at hv'
              simp only [Option.some.injEq, Prod.mk.injEq] at hv'
              exact hg hv'.2.symm
            rw [if_neg hk'k]
            exact ⟨v', hv'⟩
        · intro ⟨v', hv'⟩
          rw [hcache k'] at hv'
          by_cases hk'k : k' = k
          · rw [if_pos hk'k] at hv'
            exact Option.noConfusion hv'
          · rw [if_neg hk'k] at hv'
            obtain ⟨b, hgb, hk'b⟩ := (inv.corr k' f').mpr ⟨v', hv'⟩
            by_cases hg : f' = f
            · rw [hg, hb] at hgb
              obtain rfl := Option.some.inj hgb
              exact ⟨lerase b0 k, by rw [hfm f', if_pos hg],
                mem_lerase_of_ne hk'b hk'k⟩
            · exact ⟨b, by rw [hfm f', if_neg hg]; exact hgb, hk'b⟩
      · intro k' v' f' hv'
        rw [hcache k'] at hv'
        by_cases hk'k : k' = k
        · rw [if_pos hk'k] at hv'
          exact Option.noConfusion hv'
        · rw [if_neg hk'k] at hv'
          exact inv.freqPos k' v' f' hv'
      · intro k' v' f' hv'
        rw [hcache k'] at hv'
        show l.minFreq ≤ f'
        by_cases hk'k : k' = k
        · rw [if_pos hk'k] at hv'
          exact Option.noConfusion hv'
        · rw [if_neg hk'k] at hv'
          exact inv.minLe k' v' f' hv'
      · show (aerase l.cache k).length ≤ l.capacity
        calc (aerase l.cache k).length ≤ l.cache.length := length_aerase_le _ _
          _ ≤ l.capacity := inv.lenLe
      · intro hfull
        exfalso
        have hlen : (aerase l.cache k).length + 1 = l.cache.length :=
          length_aerase_of_lookup_some (by simp [hkf])
        have := inv.lenLe
        have := inv.capPos
        simp only [] at hfull
        omega

theorem lfuInv_step {l : LFUCache K V} (inv : LFUInv l) (op : COp K V) :
    LFUInv (lfuStep l op) := by
  cases op with
  | get k =>
    show LFUInv (lfuGet l k).2
    rw [lfuGet]
    cases hkf : alookup l.cache k with
    | none => exact inv
    | some p =>
      obtain ⟨v, f⟩ := p
      exact lfuInv_updateFreq inv k
  | set k v => exact lfuInv_set inv k v
  | del k => exact lfuInv_delete inv k
  | clear =>
    refine ⟨List.nodup_nil, List.nodup_nil, ?_, ?_, ?_, ?_, ?_, ?_, inv.capPos, ?_⟩
    · intro f b hb
      exact Option.noConfusion hb
    · intro f b hb
      exact Option.noConfusion hb
    · intro k f
      constructor
      · intro ⟨b, hb, _⟩
        exact Option.noConfusion hb
      · intro ⟨v, hv⟩
        exact Option.noConfusion hv
    · intro k v f hv
      exact Option.noConfusion hv
    · intro k v f hv
      exact Option.noConfusion hv
    · simp [lfuStep, lfuClear]
    · intro hfull
      have := inv.capPos
      simp only [lfuStep, lfuClear, List.length_nil] at hfull
      omega

theorem lfuInv_run {l : LFUCache K V} (inv : LFUInv l)
    (ops : List (COp K V)) : LFUInv (lfuRun l ops) := by
  induction ops generalizing l with
  | nil => exact inv
  | cons op rest ih => exact ih (lfuInv_step inv op)

/-!
Timed (TTL) cache (src/cache/timed_cache.go, the plain variant cited by
the specification; the concurrent twin in the repository differs only by
locking and by eagerly removing stale heap records on update).  The Go
state is cache : map[K]*timedEntry (value + absolute expiration, int64
nanoseconds) and heap : *expirationHeap, a container/heap min-heap of
heapEntry{key, expiration} records ordered by expiration.

container/heap is Go standard library, not part of this repository; it is
modelled by its documented contract: the heap holds a collection of
records, Push inserts one, Pop removes one with minimal expiration, and
the slice's element 0 (peeked by cleanupExpired) is a minimal record.  The
model realises that contract as a list kept sorted by expiration
(insertion keeps order; the head is the top).  Every property proved below
is insensitive to which record among equal expirations sits at the top.
-/

structure TimedCache (K V : Type) where
  cache : List (K × (V × Int))
  heap : List (K × Int)
  capacity : Nat
  defaultTTL : Int

/-- NewTimedCache: fails iff capacity <= 0 or defaultTTL <= 0. -/
def timedNew (K V : Type) (capacity : Int) (defaultTTL : Int) :
    Option (TimedCache K V) :=
  if capacity ≤ 0 then none
  else if defaultTTL ≤ 0 then none
  else some { cache := [], heap := [], capacity := capacity.toNat,
              defaultTTL := defaultTTL }

/-- heap.Push of a record: the heap contract inserts it keeping the
minimal-expiration record on top (here: sorted order). -/
def hpush : List (K × Int) → (K × Int) → List (K × Int)
  | [], x => [x]
  | y :: ys, x => if x.2 < y.2 then x :: y :: ys else y :: hpush ys x

/-- The validation both loops run on a popped record: if the key is still
in the cache map with exactly the popped expiration, the entry is deleted;
a stale record (key gone, or expiration updated since) changes nothing. -/
def popCheck (c : List (K × (V × Int))) (k : K) (e : Int) :
    List (K × (V × Int)) :=
  match alookup c k with
  | some (_, e') => if e' = e then aerase c k else c
  | none => c

/-- TimedCache.cleanupExpired: pop while the top record's expiration is
<= now, validating every popped record against the cache map. -/
def cleanupLoop (now : Int) : List (K × Int) → List (K × (V × Int)) →
    List (K × Int) × List (K × (V × Int))
  | [], c => ([], c)
  | (k, e) :: hs, c =>
    if now < e then ((k, e) :: hs, c)
    else cleanupLoop now hs (popCheck c k e)

def cleanupExpired (now : Int) (t : TimedCache K V) : TimedCache K V :=
  { t with heap := (cleanupLoop now t.heap t.cache).1,
           cache := (cleanupLoop now t.heap t.cache).2 }

/-- TimedCache.Get: cleanup, then look the key up; a still-present entry
whose expiration already passed is deleted and reported absent. -/
def timedGet (t : TimedCache K V) (k : K) (now : Int) :
    Option V × TimedCache K V :=
  let t1 := cleanupExpired now t
  match alookup t1.cache k with
  | none => (none, t1)
  | some (v, e) =>
    if e < now then (none, { t1 with cache := aerase t1.cache k })
    else (some v, t1)

/-- The eviction loop of SetWithTTL: while the cache is at or above
capacity, pop the top record and delete its entry if the record is still
valid; an empty heap breaks the loop. -/
def evictLoop (cap : Nat) : List (K × Int) → List (K × (V × Int)) →
    List (K × Int) × List (K × (V × Int))
  | [], c => ([], c)
  | (k0, e0) :: hs, c =>
    if cap ≤ c.length then evictLoop cap hs (popCheck c k0 e0)
    else ((k0, e0) :: hs, c)

/-- TimedCache.SetWithTTL: cleanup; on an existing key update value and
expiration in place and push a fresh heap record (the old record stays
behind as a tombstone); on a new key run the eviction loop, then insert
and push. -/
def setWithTTL (t : TimedCache K V) (k : K) (v : V) (ttl : Int)
    (now : Int) : TimedCache K V :=
  let t1 := cleanupExpired now t
  let expiration := now + ttl
  match alookup t1.cache k with
  | some _ =>
    { t1 with cache := aset t1.cache k (v, expiration),
              heap := hpush t1.heap (k, expiration) }
  | none =>
    let p := evictLoop t1.capacity t1.heap t1.cache
    { t1 with cache := aset p.2 k (v, expiration),
              heap := hpush p.1 (k, expiration) }

/-- TimedCache.Set: SetWithTTL with the default TTL. -/
def timedSet (t : TimedCache K V) (k : K) (v : V) (now : Int) :
    TimedCache K V :=
  setWithTTL t k v t.defaultTTL now

/-- TimedCache.Delete: remove the map entry only; heap records for it go
stale and are discarded by later sweeps. -/
def timedDelete (t : TimedCache K V) (k : K) : TimedCache K V :=
  { t with cache := aerase t.cache k }

/-- TimedCache.Len: cleanup, then count the map. -/
def timedLen (t : TimedCache K V) (now : Int) : Nat × TimedCache K V :=
  ((cleanupExpired now t).cache.length, cleanupExpired now t)

/-- TimedCache.Clear: reset map and heap. -/
def timedClear (t : TimedCache K V) : TimedCache K V :=
  { t with cache := [], heap := [] }

/-- One Timed-cache operation; each clock read is the operation's now. -/
inductive TOp (K V : Type) where
  | get (k : K) (now : Int)
  | set (k : K) (v : V) (now : Int)
  | setTTL (k : K) (v : V) (ttl : Int) (now : Int)
  | del (k : K)
  | len (now : Int)
  | clear

def timedStep (t : TimedCache K V) : TOp K V → TimedCache K V
  | .get k now => (timedGet t k now).2
  | .set k v now => timedSet t k v now
  | .setTTL k v ttl now => setWithTTL t k v ttl now
  | .del k => timedDelete t k
  | .len now => (timedLen t now).2
  | .clear => timedClear t

/-- A whole client session against one Timed cache instance. -/
def timedRun (t : TimedCache K V) (ops : List (TOp K V)) : TimedCache K V :=
  ops.foldl timedStep t

/-- Every live entry's current expiration has a matching heap record. -/
def HeapCovers (h : List (K × Int)) (c : List (K × (V × Int))) : Prop :=
  ∀ k v e, alookup c k = some (v, e) → (k, e) ∈ h

/-- Well-formedness of a Timed state: unique keys, the heap respects the
priority order, every live entry is covered by a matching record, and the
size respects the capacity. -/
structure TimedInv (t : TimedCache K V) : Prop where
  nodupKeys : (akeys t.cache).Nodup
  sorted : List.Pairwise (fun a b : K × Int => a.2 ≤ b.2) t.heap
  covered : HeapCovers t.heap t.cache
  lenLe : t.cache.length ≤ t.capacity
  capPos : 1 ≤ t.capacity

theorem mem_hpush {h : List (K × Int)} {x y : K × Int} :
    x ∈ hpush h y ↔ x = y ∨ x ∈ h := by
  induction h with
  | nil => simp [hpush]
  | cons z zs ih =>
    by_cases hlt : y.2 < z.2
    · simp only [hpush, if_pos hlt, List.mem_cons]
      try tauto
    · simp only [hpush, if_neg hlt, List.mem_cons, ih]
      try tauto

theorem sorted_hpush {h : List (K × Int)} (y : K × Int)
    (hs : List.Pairwise (fun a b : K × Int => a.2 ≤ b.2) h) :
    List.Pairwise (fun a b : K × Int => a.2 ≤ b.2) (hpush h y) := by
  induction h with
  | nil => simp [hpush]
  | cons z zs ih =>
    rw [List.pairwise_cons] at hs
    by_cases hlt : y.2 < z.2
    · rw [hpush, if_pos hlt, List.pairwise_cons]
      constructor
      · intro w hw
        rcases List.mem_cons.mp hw with rfl | hw2
        · exact le_of_lt hlt
        · exact le_trans (le_of_lt hlt) (hs.1 w hw2)
      · rw [List.pairwise_cons]
        exact hs
    · rw [hpush, if_neg hlt, List.pairwise_cons]
      constructor
      · intro w hw
        rcases mem_hpush.mp hw with rfl | hw2
        · omega
        · exact hs.1 w hw2
      · exact ih hs.2

theorem popCheck_nodup {c : List (K × (V × Int))} (k : K) (e : Int)
    (h : (akeys c).Nodup) : (akeys (popCheck c k e)).Nodup := by
  rw [popCheck]
  cases alookup c k with
  | none => exact h
  | some p =>
    obtain ⟨v, e'⟩ := p
    simp only []
    by_cases he : e' = e
    · rw [if_pos he]
      exact nodup_akeys_aerase _ h
    · rw [if_neg he]
      exact h

theorem popCheck_length_le (c : List (K × (V × Int))) (k : K) (e : Int) :
    (popCheck c k e).length ≤ c.length := by
  rw [popCheck]
  cases alookup c k with
  | none => exact le_refl _
  | some p =>
    obtain ⟨v, e'⟩ := p
    simp only []
    by_cases he : e' = e
    · rw [if_pos he]
      exact length_aerase_le _ _
    · rw [if_neg he]

/-- Popping the top record keeps every remaining live entry covered by the
rest of the heap: the only record that can disappear is the popped one,
and an entry matching it is deleted by the validation. -/
theorem covers_transfer {hs : List (K × Int)} {c : List (K × (V × Int))}
    {k : K} {e : Int} (hcov : HeapCovers ((k, e) :: hs) c)
    (hnd : (akeys c).Nodup) : HeapCovers hs (popCheck c k e) := by
  intro k1 v1 e1 h1
  rw [popCheck] at h1
  cases hck : alookup c k with
  | none =>
    rw [hck] at h1
    have hmem := hcov k1 v1 e1 h1
    rcases List.mem_cons.mp hmem with heq | hmem2
    · exfalso
      obtain ⟨rfl, rfl⟩ := Prod.mk.injEq .. ▸ heq
      rw [hck] at h1
      exact Option.noConfusion h1
    · exact hmem2
  | some p =>
    obtain ⟨v, e'⟩ := p
    rw [hck] at h1
    simp only [] at h1
    by_cases he : e' = e
    · rw [if_pos he] at h1
      by_cases hk1 : k1 = k
      · exfalso
        rw [hk1, alookup_aerase_self _ hnd] at h1
        exact Option.noConfusion h1
      · rw [alookup_aerase_ne _ hk1] at h1
        have hmem := hcov k1 v1 e1 h1
        rcases List.mem_cons.mp hmem with heq | hmem2
        · exfalso
          have : k1 = k := congrArg Prod.fst heq
          exact hk1 this
        · exact hmem2
    · rw [if_neg he] at h1
      have hmem := hcov k1 v1 e1 h1
      rcases List.mem_cons.mp hmem with heq | hmem2
      · exfalso
        have hk1 : k1 = k := congrArg Prod.fst heq
        have he1 : e1 = e := congrArg Prod.snd heq
        rw [hk1, hck] at h1
        obtain h' := Option.some.inj h1
        have : e' = e1 := congrArg Prod.snd h'
        omega
      · exact hmem2

theorem popCheck_lookup_ne {c : List (K × (V × Int))} {k k1 : K} (e : Int)
    (hne : k1 ≠ k) : alookup (popCheck c k e) k1 = alookup c k1 := by
  rw [popCheck]
  cases alookup c k with
  | none => rfl
  | some p =>
    obtain ⟨v, e'⟩ := p
    simp only []
    by_cases he : e' = e
    · rw [if_pos he, alookup_aerase_ne _ hne]
    · rw [if_neg he]

theorem cleanupLoop_nodup {now : Int} (h : List (K × Int))
    {c : List (K × (V × Int))} (hnd : (akeys c).Nodup) :
    (akeys (cleanupLoop now h c).2).Nodup := by
  induction h generalizing c with
  | nil => exact hnd
  | cons r hs ih =>
    obtain ⟨k, e⟩ := r
    rw [cleanupLoop]
    by_cases hlt : now < e
    · rw [if_pos hlt]
      exact hnd
    · rw [if_neg hlt]
      exact ih (popCheck_nodup k e hnd)

theorem cleanupLoop_length_le {now : Int} (h : List (K × Int))
    (c : List (K × (V × Int))) :
    (cleanupLoop now h c).2.length ≤ c.length := by
  induction h generalizing c with
  | nil => exact le_refl _
  | cons r hs ih =>
    obtain ⟨k, e⟩ := r
    rw [cleanupLoop]
    by_cases hlt : now < e
    · rw [if_pos hlt]
    · rw [if_neg hlt]
      exact le_trans (ih (popCheck c k e)) (popCheck_length_le c k e)

omit [DecidableEq K] in
theorem filter_gt_eq_self {now : Int} {l : List (K × Int)}
    (h : ∀ r ∈ l, now < r.2) : l.filter (fun r => now < r.2) = l := by
  induction l with
  | nil => rfl
  | cons a as ih =>
    rw [List.filter_cons, if_pos (decide_eq_true (h a (List.mem_cons_self _ _))),
      ih (fun r hr => h r (List.mem_cons_of_mem _ hr))]

/-- The cleanup sweep pops exactly the records with expiration <= now: on
a sorted heap, the remaining heap is the filter of the old one. -/
theorem cleanupLoop_heap {now : Int} {h : List (K × Int)}
    (c : List (K × (V × Int)))
    (hsort : List.Pairwise (fun a b : K × Int => a.2 ≤ b.2) h) :
    (cleanupLoop now h c).1 = h.filter (fun r => now < r.2) := by
  induction h generalizing c with
  | nil => rfl
  | cons r hs ih =>
    obtain ⟨k, e⟩ := r
    rw [List.pairwise_cons] at hsort
    rw [cleanupLoop]
    by_cases hlt : now < e
    · rw [if_pos hlt, List.filter_cons,
        if_pos (decide_eq_true (show now < (k, e).2 from hlt)),
        filter_gt_eq_self (fun r hr => lt_of_lt_of_le hlt (hsort.1 r hr))]
    · rw [if_neg hlt, List.filter_cons,
        if_neg (by simpa using hlt)]
      exact ih (popCheck c k e) hsort.2

/-- The cleanup sweep's effect on the map: a key whose current expiration
is <= now is removed, every other key keeps its binding. -/
theorem cleanupLoop_lookup {now : Int} {h : List (K × Int)}
    {c : List (K × (V × Int))}
    (hsort : List.Pairwise (fun a b : K × Int => a.2 ≤ b.2) h)
    (hcov : HeapCovers h c) (hnd : (akeys c).Nodup) (k' : K) :
    alookup (cleanupLoop now h c).2 k' =
      match alookup c k' with
      | some (v, e) => if now < e then some (v, e) else none
      | none => none := by
  induction h generalizing c with
  | nil =>
    have h2 : (cleanupLoop now ([] : List (K × Int)) c).2 = c := by
      rw [cleanupLoop]
    rw [h2]
    cases hc : alookup c k' with
    | none => rfl
    | some p =>
      obtain ⟨v, e⟩ := p
      exact absurd (hcov k' v e hc) (List.not_mem_nil _)
  | cons r hs ih =>
    obtain ⟨k, e⟩ := r
    rw [List.pairwise_cons] at hsort
    rw [cleanupLoop]
    by_cases hlt : now < e
    · rw [if_pos hlt]
      cases hc : alookup c k' with
      | none => rfl
      | some p =>
        obtain ⟨v, e'⟩ := p
        have hmem := hcov k' v e' hc
        have hgt : now < e' := by
          rcases List.mem_cons.mp hmem with heq | hmem2
          · have : e' = e := congrArg Prod.snd heq
            omega
          · exact lt_of_lt_of_le hlt (hsort.1 _ hmem2)
        simp only [hc, if_pos hgt]
    · rw [if_neg hlt]
      have ihx := ih hsort.2 (covers_transfer hcov hnd) (popCheck_nodup k e hnd)
      rw [ihx]
      by_cases hk' : k' = k
      · subst hk'
        cases hck : alookup c k' with
        | none =>
          rw [show popCheck c k' e = c by rw [popCheck, hck], hck]
        | some p =>
          obtain ⟨v0, e0⟩ := p
          by_cases he0 : e0 = e
          · have hpc : popCheck c k' e = aerase c k' := by
              rw [popCheck, hck]
              simp only []
              rw [if_pos he0]
            have h1 : alookup (aerase c k') k' = none := alookup_aerase_self _ hnd
            rw [hpc, h1]
            simp only []
            rw [if_neg (by omega)]
          · have hpc : popCheck c k' e = c := by
              rw [popCheck, hck]
              simp only []
              rw [if_neg he0]
            rw [hpc, hck]
      · rw [popCheck_lookup_ne _ hk']

/-- When no live entry has expired, the sweep leaves the map untouched
(stale records may still be popped from the heap). -/
theorem cleanupLoop_cache_of_live {now : Int} {h : List (K × Int)}
    {c : List (K × (V × Int))}
    (hlive : ∀ k v e, alookup c k = some (v, e) → now < e) :
    (cleanupLoop now h c).2 = c := by
  induction h generalizing c with
  | nil => rfl
  | cons r hs ih =>
    obtain ⟨k, e⟩ := r
    rw [cleanupLoop]
    by_cases hlt : now < e
    · rw [if_pos hlt]
    · rw [if_neg hlt]
      have hpc : popCheck c k e = c := by
        rw [popCheck]
        cases hck : alookup c k with
        | none => rfl
        | some p =>
          obtain ⟨v0, e0⟩ := p
          simp only []
          rw [if_neg (fun hc => by have := hlive k v0 e0 hck; omega)]
      rw [hpc]
      exact ih hlive

theorem evictLoop_stop {cap : Nat} {h : List (K × Int)}
    {c : List (K × (V × Int))} (hlen : ¬ cap ≤ c.length) :
    (evictLoop cap h c).2 = c := by
  cases h with
  | nil => rfl
  | cons r hs =>
    obtain ⟨k, e⟩ := r
    rw [evictLoop, if_neg hlen]

theorem evictLoop_nodup {cap : Nat} (h : List (K × Int))
    {c : List (K × (V × Int))} (hnd : (akeys c).Nodup) :
    (akeys (evictLoop cap h c).2).Nodup := by
  induction h generalizing c with
  | nil => exact hnd
  | cons r hs ih =>
    obtain ⟨k, e⟩ := r
    rw [evictLoop]
    by_cases hlen : cap ≤ c.length
    · rw [if_pos hlen]
      exact ih (popCheck_nodup k e hnd)
    · rw [if_neg hlen]
      exact hnd

theorem evictLoop_sorted {cap : Nat} {h : List (K × Int)}
    (c : List (K × (V × Int)))
    (hsort : List.Pairwise (fun a b : K × Int => a.2 ≤ b.2) h) :
    List.Pairwise (fun a b : K × Int => a.2 ≤ b.2) (evictLoop cap h c).1 := by
  induction h generalizing c with
  | nil => exact List.Pairwise.nil
  | cons r hs ih =>
    obtain ⟨k, e⟩ := r
    rw [evictLoop]
    by_cases hlen : cap ≤ c.length
    · rw [if_pos hlen]
      exact ih _ (List.pairwise_cons.mp hsort).2
    · rw [if_neg hlen]
      exact hsort

theorem evictLoop_covers {cap : Nat} {h : List (K × Int)}
    {c : List (K × (V × Int))} (hcov : HeapCovers h c)
    (hnd : (akeys c).Nodup) :
    HeapCovers (evictLoop cap h c).1 (evictLoop cap h c).2 := by
  induction h generalizing c with
  | nil => exact hcov
  | cons r hs ih =>
    obtain ⟨k, e⟩ := r
    rw [evictLoop]
    by_cases hlen : cap ≤ c.length
    · rw [if_pos hlen]
      exact ih (covers_transfer hcov hnd) (popCheck_nodup k e hnd)
    · rw [if_neg hlen]
      exact hcov

theorem evictLoop_lookup_none {cap : Nat} {h : List (K × Int)}
    {c : List (K × (V × Int))} {k1 : K} (hk : alookup c k1 = none)
    (hnd : (akeys c).Nodup) : alookup (evictLoop cap h c).2 k1 = none := by
  induction h generalizing c with
  | nil => exact hk
  | cons r hs ih =>
    obtain ⟨k, e⟩ := r
    rw [evictLoop]
    by_cases hlen : cap ≤ c.length
    · rw [if_pos hlen]
      refine ih ?_ (popCheck_nodup k e hnd)
      by_cases hk1 : k1 = k
      · subst hk1
        rw [popCheck]
        cases hck : alookup c k1 with
        | none => exact hk
        | some p =>
          rw [hck] at hk
          exact Option.noConfusion hk
      · rw [popCheck_lookup_ne _ hk1]
        exact hk
    · rw [if_neg hlen]
      exact hk

/-- The eviction loop always drives the cache strictly below capacity:
the heap cannot run dry while entries remain, because every live entry is
covered by a heap record. -/
theorem evictLoop_lt {cap : Nat} {h : List (K × Int)}
    {c : List (K × (V × Int))} (hcov : HeapCovers h c)
    (hnd : (akeys c).Nodup) (hcap : 1 ≤ cap) :
    (evictLoop cap h c).2.length < cap := by
  induction h generalizing c with
  | nil =>
    show c.length < cap
    cases hc : c with
    | nil => simpa [hc] using hcap
    | cons p rest =>
      exfalso
      have hl : alookup c p.1 = some p.2 := by
        rw [hc]
        obtain ⟨k1, v1⟩ := p
        simp [alookup]
      exact List.not_mem_nil _ (hcov p.1 p.2.1 p.2.2 hl)
  | cons r hs ih =>
    obtain ⟨k, e⟩ := r
    rw [evictLoop]
    by_cases hlen : cap ≤ c.length
    · rw [if_pos hlen]
      exact ih (covers_transfer hcov hnd) (popCheck_nodup k e hnd)
    · rw [if_neg hlen]
      show c.length < cap
      omega

/-- When the eviction loop starts exactly at capacity (the only reachable
overflow), it removes exactly one entry: the live entry whose heap-covered
expiration is minimal among all live entries. -/
theorem evictLoop_exact {cap : Nat} {h : List (K × Int)}
    {c : List (K × (V × Int))}
    (hsort : List.Pairwise (fun a b : K × Int => a.2 ≤ b.2) h)
    (hcov : HeapCovers h c) (hnd : (akeys c).Nodup)
    (hcap : 1 ≤ cap) (hlen : c.length = cap) :
    ∃ k0 v0 e0, alookup c k0 = some (v0, e0) ∧
      (evictLoop cap h c).2 = aerase c k0 ∧
      ∀ k' v' e', k' ≠ k0 → alookup c k' = some (v', e') → e0 ≤ e' := by
  induction h generalizing c with
  | nil =>
    exfalso
    cases hc : c with
    | nil =>
      rw [hc] at hlen
      simp only [List.length_nil] at hlen
      omega
    | cons p rest =>
      have hl : alookup c p.1 = some p.2 := by
        rw [hc]
        obtain ⟨k1, v1⟩ := p
        simp [alookup]
      exact List.not_mem_nil _ (hcov p.1 p.2.1 p.2.2 hl)
  | cons r hs ih =>
    obtain ⟨k1, e1⟩ := r
    rw [List.pairwise_cons] at hsort
    rw [evictLoop, if_pos (by omega)]
    cases hck : alookup c k1 with
    | some p =>
      obtain ⟨v1, e1'⟩ := p
      by_cases he : e1' = e1
      · have hpop : popCheck c k1 e1 = aerase c k1 := by
          rw [popCheck, hck]
          simp only []
          rw [if_pos he]
        have hlen2 : (aerase c k1).length + 1 = c.length :=
          length_aerase_of_lookup_some (by simp [hck])
        refine ⟨k1, v1, e1', hck, ?_, ?_⟩
        · rw [hpop, evictLoop_stop (by omega)]
        · intro k' v' e' hk' hl'
          have hmem := hcov k' v' e' hl'
          rcases List.mem_cons.mp hmem with heq | hmem2
          · exact absurd (congrArg Prod.fst heq) hk'
          · have h3 : e1 ≤ e' := hsort.1 (k', e') hmem2
            omega
      · have hpop : popCheck c k1 e1 = c := by
          rw [popCheck, hck]
          simp only []
          rw [if_neg he]
        have hcov' : HeapCovers hs c := by
          have := covers_transfer hcov hnd
          rwa [hpop] at this
        rw [hpop]
        exact ih hsort.2 hcov' hnd hlen
    | none =>
      have hpop : popCheck c k1 e1 = c := by
        rw [popCheck, hck]
      have hcov' : HeapCovers hs c := by
        have := covers_transfer hcov hnd
        rwa [hpop] at this
      rw [hpop]
      exact ih hsort.2 hcov' hnd hlen

theorem timedInv_new {K V : Type} [DecidableEq K] {c d : Int}
    {t : TimedCache K V} (h : timedNew K V c d = some t) : TimedInv t := by
  rw [timedNew] at h
  by_cases hc : c ≤ 0
  · rw [if_pos hc] at h
    exact Option.noConfusion h
  · rw [if_neg hc] at h
    by_cases hd : d ≤ 0
    · rw [if_pos hd] at h
      exact Option.noConfusion h
    · rw [if_neg hd] at h
      obtain rfl := Option.some.inj h
      refine ⟨List.nodup_nil, List.Pairwise.nil, ?_, ?_, ?_⟩
      · intro k v e hv
        exact Option.noConfusion hv
      · simp
      · simp only []
        omega

/-- Shorthand for the sweep formula on a well-formed state. -/
theorem cleanup_lookup {t : TimedCache K V} (inv : TimedInv t)
    (now : Int) (k : K) :
    alookup (cleanupExpired now t).cache k =
      match alookup t.cache k with
      | some (v, e) => if now < e then some (v, e) else none
      | none => none :=
  cleanupLoop_lookup inv.sorted inv.covered inv.nodupKeys k

theorem timedInv_cleanup {t : TimedCache K V} (inv : TimedInv t)
    (now : Int) : TimedInv (cleanupExpired now t) := by
  refine ⟨?_, ?_, ?_, ?_, inv.capPos⟩
  · exact cleanupLoop_nodup _ inv.nodupKeys
  · show List.Pairwise _ (cleanupLoop now t.heap t.cache).1
    rw [cleanupLoop_heap _ inv.sorted]
    exact inv.sorted.filter _
  · intro k v e hl
    rw [cleanup_lookup inv now k] at hl
    cases hc : alookup t.cache k with
    | none =>
      rw [hc] at hl
      exact Option.noConfusion hl
    | some p =>
      obtain ⟨v0, e0⟩ := p
      rw [hc] at hl
      simp only [] at hl
      by_cases hlt : now < e0
      · rw [if_pos hlt] at hl
        simp only [Option.some.injEq, Prod.mk.injEq] at hl
        obtain ⟨rfl, rfl⟩ := hl
        show (k, e0) ∈ (cleanupLoop now t.heap t.cache).1
        rw [cleanupLoop_heap _ inv.sorted]
        exact List.mem_filter.mpr ⟨inv.covered k v0 e0 hc, decide_eq_true hlt⟩
      · rw [if_neg hlt] at hl
        exact Option.noConfusion hl
  · show (cleanupLoop now t.heap t.cache).2.length ≤ t.capacity
    exact le_trans (cleanupLoop_length_le _ _) inv.lenLe

theorem timedInv_setWithTTL {t : TimedCache K V} (inv : TimedInv t)
    (k : K) (v : V) (ttl now : Int) :
    TimedInv (setWithTTL t k v ttl now) := by
  have inv1 := timedInv_cleanup inv now
  simp only [setWithTTL]
  cases hc : alookup (cleanupExpired now t).cache k with
  | some p =>
    simp only []
    refine ⟨?_, ?_, ?_, ?_, inv1.capPos⟩
    · exact nodup_akeys_aset _ _ inv1.nodupKeys
    · exact sorted_hpush _ inv1.sorted
    · intro k1 v1 e1 h1
      by_cases hk1 : k1 = k
      · subst hk1
        rw [alookup_aset_self] at h1
        simp only [Option.some.injEq, Prod.mk.injEq] at h1
        exact mem_hpush.mpr (Or.inl (by rw [h1.2]))
      · rw [alookup_aset_ne _ _ hk1] at h1
        exact mem_hpush.mpr (Or.inr (inv1.covered k1 v1 e1 h1))
    · show (aset (cleanupExpired now t).cache k (v, now + ttl)).length ≤ _
      rw [length_aset_of_lookup_some _ (by simp [hc])]
      exact inv1.lenLe
  | none =>
    have hnd1 := inv1.nodupKeys
    have hcov1 := inv1.covered
    have hlt : (evictLoop (cleanupExpired now t).capacity
        (cleanupExpired now t).heap (cleanupExpired now t).cache).2.length <
        (cleanupExpired now t).capacity :=
      evictLoop_lt hcov1 hnd1 inv1.capPos
    have hnone : alookup (evictLoop (cleanupExpired now t).capacity
        (cleanupExpired now t).heap (cleanupExpired now t).cache).2 k = none :=
      evictLoop_lookup_none hc hnd1
    simp only []
    refine ⟨?_, ?_, ?_, ?_, inv1.capPos⟩
    · rw [akeys_aset_of_lookup_none _ hnone]
      have hkk : k ∉ akeys (evictLoop (cleanupExpired now t).capacity
          (cleanupExpired now t).heap (cleanupExpired now t).cache).2 := fun hcm => by
        have := alookup_isSome_of_mem_akeys hcm
        rw [hnone] at this
        exact Bool.noConfusion this
      simp [List.nodup_append, evictLoop_nodup _ hnd1, hkk]
    · exact sorted_hpush _ (evictLoop_sorted _ inv1.sorted)
    · intro k1 v1 e1 h1
      by_cases hk1 : k1 = k
      · subst hk1
        rw [alookup_aset_self] at h1
        simp only [Option.some.injEq, Prod.mk.injEq] at h1
        exact mem_hpush.mpr (Or.inl (by rw [h1.2]))
      · rw [alookup_aset_ne _ _ hk1] at h1
        exact mem_hpush.mpr (Or.inr (evictLoop_covers hcov1 hnd1 k1 v1 e1 h1))
    · show (aset _ k (v, now + ttl)).length ≤ (cleanupExpired now t).capacity
      rw [length_aset_of_lookup_none _ hnone]
      omega

theorem timedInv_get {t : TimedCache K V} (inv : TimedInv t)
    (k : K) (now : Int) : TimedInv (timedGet t k now).2 := by
  have inv1 := timedInv_cleanup inv now
  simp only [timedGet]
  cases hc : alookup (cleanupExpired now t).cache k with
  | none => exact inv1
  | some p =>
    obtain ⟨v, e⟩ := p
    simp only []
    by_cases hlt : e < now
    · rw [if_pos hlt]
      refine ⟨?_, inv1.sorted, ?_, ?_, inv1.capPos⟩
      · exact nodup_akeys_aerase _ inv1.nodupKeys
      · intro k1 v1 e1 h1
        by_cases hk1 : k1 = k
        · subst hk1
          rw [alookup_aerase_self _ inv1.nodupKeys] at h1
          exact Option.noConfusion h1
        · rw [alookup_aerase_ne _ hk1] at h1
          exact inv1.covered k1 v1 e1 h1
      · show (aerase (cleanupExpired now t).cache k).length ≤ _
        exact le_trans (length_aerase_le _ _) inv1.lenLe
    · rw [if_neg hlt]
      exact inv1

theorem timedInv_step {t : TimedCache K V} (inv : TimedInv t)
    (op : TOp K V) : TimedInv (timedStep t op) := by
  cases op with
  | get k now => exact timedInv_get inv k now
  | set k v now => exact timedInv_setWithTTL inv k v t.defaultTTL now
  | setTTL k v ttl now => exact timedInv_setWithTTL inv k v ttl now
  | del k =>
    refine ⟨nodup_akeys_aerase _ inv.nodupKeys, inv.sorted, ?_, ?_, inv.capPos⟩
    · intro k1 v1 e1 h1
      by_cases hk1 : k1 = k
      · subst hk1
        rw [show (timedStep t (TOp.del k1)).cache = aerase t.cache k1 from rfl,
          alookup_aerase_self _ inv.nodupKeys] at h1
        exact Option.noConfusion h1
      · rw [show (timedStep t (TOp.del k)).cache = aerase t.cache k from rfl,
          alookup_aerase_ne _ hk1] at h1
        exact inv.covered k1 v1 e1 h1
    · show (aerase t.cache k).length ≤ _
      exact le_trans (length_aerase_le _ _) inv.lenLe
  | len now => exact timedInv_cleanup inv now
  | clear =>
    refine ⟨List.nodup_nil, List.Pairwise.nil, ?_, ?_, inv.capPos⟩
    · intro k v e hv
      exact Option.noConfusion hv
    · simp [timedStep, timedClear]

theorem timedInv_run {t : TimedCache K V} (inv : TimedInv t)
    (ops : List (TOp K V)) : TimedInv (timedRun t ops) := by
  induction ops generalizing t with
  | nil => exact inv
  | cons op rest ih => exact ih (timedInv_step inv op)

/-! No operation ever changes the capacity fixed at construction. -/

theorem fifoStep_capacity (f : FIFOCache K V) (op : COp K V) :
    (fifoStep f op).capacity = f.capacity := by
  cases op with
  | get k => rfl
  | set k v =>
    show (fifoSet f k v).capacity = f.capacity
    rw [fifoSet]
    by_cases h : (alookup f.cache k).isSome
    · rw [if_pos h]
    · rw [if_neg h]
      by_cases h2 : f.queue.length ≥ f.capacity
      · simp only [if_pos h2]
        cases f.queue with
        | nil => rfl
        | cons k0 rest => rfl
      · simp only [if_neg h2]
  | del k =>
    show (fifoDelete f k).capacity = f.capacity
    rw [fifoDelete]
    by_cases h : (alookup f.cache k).isSome
    · rw [if_pos h]
    · rw [if_neg h]
  | clear => rfl

theorem fifoRun_capacity (f : FIFOCache K V) (ops : List (COp K V)) :
    (fifoRun f ops).capacity = f.capacity := by
  induction ops generalizing f with
  | nil => rfl
  | cons op rest ih =>
    show (fifoRun (fifoStep f op) rest).capacity = f.capacity
    rw [ih, fifoStep_capacity]

theorem lruStep_capacity (l : LRUCache K V) (op : COp K V) :
    (lruStep l op).capacity = l.capacity := by
  cases op with
  | get k =>
    show (lruGet l k).2.capacity = l.capacity
    rw [lruGet]
    cases alookup l.list k with
    | none => rfl
    | some v => rfl
  | set k v =>
    show (lruSet l k v).capacity = l.capacity
    rw [lruSet]
    cases alookup l.list k with
    | some v0 => rfl
    | none =>
      by_cases h2 : l.list.length ≥ l.capacity
      · simp only [if_pos h2]
        cases l.list.getLast? with
        | none => rfl
        | some p => rfl
      · simp only [if_neg h2]
  | del k =>
    show (lruDelete l k).capacity = l.capacity
    rw [lruDelete]
    cases alookup l.list k with
    | some v0 => rfl
    | none => rfl
  | clear => rfl

theorem lruRun_capacity (l : LRUCache K V) (ops : List (COp K V)) :
    (lruRun l ops).capacity = l.capacity := by
  induction ops generalizing l with
  | nil => rfl
  | cons op rest ih =>
    show (lruRun (lruStep l op) rest).capacity = l.capacity
    rw [ih, lruStep_capacity]

theorem updateFreq_capacity (l : LFUCache K V) (k : K) :
    (updateFreq l k).capacity = l.capacity := by
  rw [updateFreq]
  cases alookup l.cache k with
  | none => rfl
  | some p =>
    obtain ⟨v, f⟩ := p
    rfl

theorem lfuStep_capacity (l : LFUCache K V) (op : COp K V) :
    (lfuStep l op).capacity = l.capacity := by
  cases op with
  | get k =>
    show (lfuGet l k).2.capacity = l.capacity
    rw [lfuGet]
    cases alookup l.cache k with
    | none => rfl
    | some p =>
      obtain ⟨v, f⟩ := p
      exact updateFreq_capacity _ k
  | set k v =>
    show (lfuSet l k v).capacity = l.capacity
    rw [lfuSet]
    cases alookup l.cache k with
    | some p =>
      obtain ⟨v0, f⟩ := p
      exact updateFreq_capacity _ k
    | none => rfl
  | del k =>
    show (lfuDelete l k).capacity = l.capacity
    rw [lfuDelete]
    cases alookup l.cache k with
    | none => rfl
    | some p =>
      obtain ⟨v, f⟩ := p
      rfl
  | clear => rfl

theorem lfuRun_capacity (l : LFUCache K V) (ops : List (COp K V)) :
    (lfuRun l ops).capacity = l.capacity := by
  induction ops generalizing l with
  | nil => rfl
  | cons op rest ih =>
    show (lfuRun (lfuStep l op) rest).capacity = l.capacity
    rw [ih, lfuStep_capacity]

theorem setWithTTL_capacity (t : TimedCache K V) (k : K) (v : V)
    (ttl now : Int) : (setWithTTL t k v ttl now).capacity = t.capacity := by
  rw [setWithTTL]
  cases alookup (cleanupExpired now t).cache k with
  | none => rfl
  | some p => rfl

theorem timedStep_capacity (t : TimedCache K V) (op : TOp K V) :
    (timedStep t op).capacity = t.capacity := by
  cases op with
  | get k now =>
    show (timedGet t k now).2.capacity = t.capacity
    rw [timedGet]
    cases alookup (cleanupExpired now t).cache k with
    | none => rfl
    | some p =>
      obtain ⟨v, e⟩ := p
      simp only []
      by_cases h : e < now
      · rw [if_pos h]
        rfl
      · rw [if_neg h]
        rfl
  | set k v now => exact setWithTTL_capacity t k v t.defaultTTL now
  | setTTL k v ttl now => exact setWithTTL_capacity t k v ttl now
  | del k => rfl
  | len now => rfl
  | clear => rfl

theorem timedRun_capacity (t : TimedCache K V) (ops : List (TOp K V)) :
    (timedRun t ops).capacity = t.capacity := by
  induction ops generalizing t with
  | nil => rfl
  | cons op rest ih =>
    show (timedRun (timedStep t op) rest).capacity = t.capacity
    rw [ih, timedStep_capacity]

/-! Reachability: the states a client can put a cache in, starting from a
successful constructor call. -/

def FIFOReachable (f : FIFOCache K V) : Prop :=
  ∃ (c : Int) (f0 : FIFOCache K V) (ops : List (COp K V)),
    fifoNew K V c = some f0 ∧ fifoRun f0 ops = f

def LRUReachable (l : LRUCache K V) : Prop :=
  ∃ (c : Int) (l0 : LRUCache K V) (ops : List (COp K V)),
    lruNew K V c = some l0 ∧ lruRun l0 ops = l

def LFUReachable (l : LFUCache K V) : Prop :=
  ∃ (c : Int) (l0 : LFUCache K V) (ops : List (COp K V)),
    lfuNew K V c = some l0 ∧ lfuRun l0 ops = l

def TimedReachable (t : TimedCache K V) : Prop :=
  ∃ (c d : Int) (t0 : TimedCache K V) (ops : List (TOp K V)),
    timedNew K V c d = some t0 ∧ timedRun t0 ops = t

theorem fifoInv_reachable {f : FIFOCache K V} (h : FIFOReachable f) :
    FIFOInv f := by
  obtain ⟨c, f0, ops, hnew, hrun⟩ := h
  rw [← hrun]
  exact fifoInv_run (fifoInv_new hnew) ops

theorem lruInv_reachable {l : LRUCache K V} (h : LRUReachable l) :
    LRUInv l := by
  obtain ⟨c, l0, ops, hnew, hrun⟩ := h
  rw [← hrun]
  exact lruInv_run (lruInv_new hnew) ops

theorem lfuInv_reachable {l : LFUCache K V} (h : LFUReachable l) :
    LFUInv l := by
  obtain ⟨c, l0, ops, hnew, hrun⟩ := h
  rw [← hrun]
  exact lfuInv_run (lfuInv_new hnew) ops

theorem timedInv_reachable {t : TimedCache K V} (h : TimedReachable t) :
    TimedInv t := by
  obtain ⟨c, d, t0, ops, hnew, hrun⟩ := h
  rw [← hrun]
  exact timedInv_run (timedInv_new hnew) ops

omit [DecidableEq K] in
theorem length_hpush (h : List (K × Int)) (x : K × Int) :
    (hpush h x).length = h.length + 1 := by
  induction h with
  | nil => rfl
  | cons y ys ih =>
    rw [hpush]
    by_cases hlt : x.2 < y.2
    · rw [if_pos hlt]
      rfl
    · rw [if_neg hlt]
      simp only [List.length_cons, ih]

/-- SetWithTTL always leaves the key bound to the new value with
expiration now + ttl (no validation of ttl happens). -/
theorem setWithTTL_lookup_self (t : TimedCache K V) (k : K) (v : V)
    (ttl now : Int) :
    alookup (setWithTTL t k v ttl now).cache k = some (v, now + ttl) := by
  simp only [setWithTTL]
  cases hc : alookup (cleanupExpired now t).cache k with
  | some p =>
    simp only []
    exact alookup_aset_self _ _ _
  | none =>
    simp only []
    exact alookup_aset_self _ _ _

/-- A Get strictly before the entry's expiration finds it (and keeps it). -/
theorem timedGet_live {s : TimedCache K V} (inv : TimedInv s) {k : K}
    {v : V} {e : Int} (hl : alookup s.cache k = some (v, e)) {tg : Int}
    (h : tg < e) :
    (timedGet s k tg).1 = some v ∧
    alookup (timedGet s k tg).2.cache k = some (v, e) := by
  have hc1 : alookup (cleanupExpired tg s).cache k = some (v, e) := by
    rw [cleanup_lookup inv tg k, hl]
    simp only []
    rw [if_pos h]
  simp only [timedGet, hc1]
  rw [if_neg (by omega)]
  exact ⟨rfl, hc1⟩

/-- A Get at or after the entry's expiration reports it absent and removes
it: the cleanup sweep pops its matching record and deletes the entry. -/
theorem timedGet_expired {s : TimedCache K V} (inv : TimedInv s) {k : K}
    {v : V} {e : Int} (hl : alookup s.cache k = some (v, e)) {tg : Int}
    (h : e ≤ tg) :
    (timedGet s k tg).1 = none ∧
    alookup (timedGet s k tg).2.cache k = none := by
  have hc1 : alookup (cleanupExpired tg s).cache k = none := by
    rw [cleanup_lookup inv tg k, hl]
    simp only []
    rw [if_neg (by omega)]
  simp only [timedGet, hc1]
  exact ⟨trivial, trivial⟩

/-- A Get of an unbound key reports it absent and stays that way. -/
theorem timedGet_absent {s : TimedCache K V} (inv : TimedInv s) {k : K}
    (hl : alookup s.cache k = none) (tg : Int) :
    (timedGet s k tg).1 = none ∧
    alookup (timedGet s k tg).2.cache k = none := by
  have hc1 : alookup (cleanupExpired tg s).cache k = none := by
    rw [cleanup_lookup inv tg k, hl]
  simp only [timedGet, hc1]
  exact ⟨trivial, trivial⟩

theorem fifoNew_capacity {K V : Type} [DecidableEq K] {c : Int}
    {f0 : FIFOCache K V} (h : fifoNew K V c = some f0) :
    f0.capacity = c.toNat := by
  rw [fifoNew] at h
  by_cases hc : c ≤ 0
  · rw [if_pos hc] at h
    exact Option.noConfusion h
  · rw [if_neg hc] at h
    obtain rfl := Option.some.inj h
    rfl

theorem lruNew_capacity {K V : Type} [DecidableEq K] {c : Int}
    {l0 : LRUCache K V} (h : lruNew K V c = some l0) :
    l0.capacity = c.toNat := by
  rw [lruNew] at h
  by_cases hc : c ≤ 0
  · rw [if_pos hc] at h
    exact Option.noConfusion h
  · rw [if_neg hc] at h
    obtain rfl := Option.some.inj h
    rfl

theorem lfuNew_capacity {K V : Type} [DecidableEq K] {c : Int}
    {l0 : LFUCache K V} (h : lfuNew K V c = some l0) :
    l0.capacity = c.toNat := by
  rw [lfuNew] at h
  by_cases hc : c ≤ 0
  · rw [if_pos hc] at h
    exact Option.noConfusion h
  · rw [if_neg hc] at h
    obtain rfl := Option.some.inj h
    rfl

theorem timedNew_capacity {K V : Type} [DecidableEq K] {c d : Int}
    {t0 : TimedCache K V} (h : timedNew K V c d = some t0) :
    t0.capacity = c.toNat := by
  rw [timedNew] at h
  by_cases hc : c ≤ 0
  · rw [if_pos hc] at h
    exact Option.noConfusion h
  · rw [if_neg hc] at h
    by_cases hd : d ≤ 0
    · rw [if_pos hd] at h
      exact Option.noConfusion h
    · rw [if_neg hd] at h
      obtain rfl := Option.some.inj h
      rfl

/-! Concrete sample instances used by the closed witness statements. -/

def fifoNat2 : FIFOCache Nat Nat := { cache := [], queue := [], capacity := 2 }

def lruNat2 : LRUCache Nat Nat := { list := [], capacity := 2 }

def lfuNat2 : LFUCache Nat Nat :=
  { cache := [], freqMap := [], minFreq := 0, capacity := 2 }

def timedNat1 : TimedCache Nat Nat :=
  { cache := [], heap := [], capacity := 1, defaultTTL := 50 }

def timedNat2 : TimedCache Nat Nat :=
  { cache := [], heap := [], capacity := 2, defaultTTL := 100 }

/-- Claim C1: for every policy (FIFO, LRU, LFU, Timed) and every sequence
of constructor/get/set/delete/clear operations starting from a
successfully constructed cache of capacity C, the number of live entries
reported by len() is at most C after every set. -/
theorem claim_C1_capacity_invariant :
    (∀ (K V : Type) [DecidableEq K] (c : Int) (f0 : FIFOCache K V)
        (ops : List (COp K V)) (k : K) (v : V),
        fifoNew K V c = some f0 →
        fifoLen (fifoSet (fifoRun f0 ops) k v) ≤ c.toNat) ∧
    (∀ (K V : Type) [DecidableEq K] (c : Int) (l0 : LRUCache K V)
        (ops : List (COp K V)) (k : K) (v : V),
        lruNew K V c = some l0 →
        lruLen (lruSet (lruRun l0 ops) k v) ≤ c.toNat) ∧
    (∀ (K V : Type) [DecidableEq K] (c : Int) (l0 : LFUCache K V)
        (ops : List (COp K V)) (k : K) (v : V),
        lfuNew K V c = some l0 →
        lfuLen (lfuSet (lfuRun l0 ops) k v) ≤ c.toNat) ∧
    (∀ (K V : Type) [DecidableEq K] (c d : Int) (t0 : TimedCache K V)
        (ops : List (TOp K V)) (k : K) (v : V) (now now' : Int),
        timedNew K V c d = some t0 →
        (timedLen (timedSet (timedRun t0 ops) k v now) now').1 ≤ c.toNat) := by
  refine ⟨?_, ?_, ?_, ?_⟩
  · intro K V _ c f0 ops k v h
    have inv := fifoInv_set (fifoInv_run (fifoInv_new h) ops) k v
    have hle := inv.lenLe
    have hcap := fifoStep_capacity (fifoRun f0 ops) (COp.set k v)
    rw [fifoRun_capacity, fifoNew_capacity h] at hcap
    exact le_of_le_of_eq hle hcap
  · intro K V _ c l0 ops k v h
    have inv := lruInv_step (lruInv_run (lruInv_new h) ops) (COp.set k v)
    have hle := inv.lenLe
    have hcap := lruStep_capacity (lruRun l0 ops) (COp.set k v)
    rw [lruRun_capacity, lruNew_capacity h] at hcap
    exact le_of_le_of_eq hle hcap
  · intro K V _ c l0 ops k v h
    have inv := lfuInv_set (lfuInv_run (lfuInv_new h) ops) k v
    have hle := inv.lenLe
    have hcap := lfuStep_capacity (lfuRun l0 ops) (COp.set k v)
    rw [lfuRun_capacity, lfuNew_capacity h] at hcap
    exact le_of_le_of_eq hle hcap
  · intro K V _ c d t0 ops k v now now' h
    have inv2 := timedInv_setWithTTL (timedInv_run (timedInv_new h) ops)
      k v (timedRun t0 ops).defaultTTL now
    have hle := inv2.lenLe
    have hcap := setWithTTL_capacity (timedRun t0 ops) k v
      (timedRun t0 ops).defaultTTL now
    rw [timedRun_capacity, timedNew_capacity h] at hcap
    show (cleanupExpired now' (timedSet (timedRun t0 ops) k v now)).cache.length ≤ c.toNat
    calc (cleanupExpired now' (timedSet (timedRun t0 ops) k v now)).cache.length
        ≤ (timedSet (timedRun t0 ops) k v now).cache.length :=
          cleanupLoop_length_le _ _
      _ ≤ (timedSet (timedRun t0 ops) k v now).capacity := hle
      _ = c.toNat := hcap

theorem claim_C1_capacity_invariant_witness :
    fifoNew Nat Nat 2 = some fifoNat2 ∧
    fifoLen (fifoSet (fifoRun fifoNat2 [COp.set 1 1, COp.set 2 2]) 3 3)
      ≤ (2 : Int).toNat ∧
    lruNew Nat Nat 2 = some lruNat2 ∧
    lruLen (lruSet (lruRun lruNat2 [COp.set 1 1, COp.set 2 2]) 3 3)
      ≤ (2 : Int).toNat ∧
    lfuNew Nat Nat 2 = some lfuNat2 ∧
    lfuLen (lfuSet (lfuRun lfuNat2 [COp.set 1 1, COp.set 2 2]) 3 3)
      ≤ (2 : Int).toNat ∧
    timedNew Nat Nat 2 100 = some timedNat2 ∧
    (timedLen (timedSet (timedRun timedNat2 [TOp.set 1 1 0, TOp.set 2 2 0])
      3 3 0) 0).1 ≤ (2 : Int).toNat :=
  ⟨rfl,
   claim_C1_capacity_invariant.1 Nat Nat 2 fifoNat2 [COp.set 1 1, COp.set 2 2] 3 3 rfl,
   rfl,
   claim_C1_capacity_invariant.2.1 Nat Nat 2 lruNat2 [COp.set 1 1, COp.set 2 2] 3 3 rfl,
   rfl,
   claim_C1_capacity_invariant.2.2.1 Nat Nat 2 lfuNat2 [COp.set 1 1, COp.set 2 2] 3 3 rfl,
   rfl,
   claim_C1_capacity_invariant.2.2.2 Nat Nat 2 100 timedNat2
     [TOp.set 1 1 0, TOp.set 2 2 0] 3 3 0 0 rfl⟩

/-- Claim C8: for every policy, the constructor returns a non-nil error
(and no cache, modelled none) exactly when capacity <= 0, and for the
Timed cache additionally exactly when the default TTL <= 0; otherwise it
returns an empty, usable cache and a nil error. -/
theorem claim_C8_construction_validation :
    ∀ (K V : Type) (c d : Int),
      ((fifoNew K V c).isSome ↔ 0 < c) ∧
      (∀ f : FIFOCache K V, fifoNew K V c = some f →
        f.cache = [] ∧ f.queue = [] ∧ f.capacity = c.toNat ∧ fifoLen f = 0) ∧
      ((lruNew K V c).isSome ↔ 0 < c) ∧
      (∀ l : LRUCache K V, lruNew K V c = some l →
        l.list = [] ∧ l.capacity = c.toNat ∧ lruLen l = 0) ∧
      ((lfuNew K V c).isSome ↔ 0 < c) ∧
      (∀ l : LFUCache K V, lfuNew K V c = some l →
        l.cache = [] ∧ l.freqMap = [] ∧ l.minFreq = 0 ∧
        l.capacity = c.toNat ∧ lfuLen l = 0) ∧
      ((timedNew K V c d).isSome ↔ (0 < c ∧ 0 < d)) ∧
      (∀ t : TimedCache K V, timedNew K V c d = some t →
        t.cache = [] ∧ t.heap = [] ∧ t.capacity = c.toNat ∧
        t.defaultTTL = d) := by
  intro K V c d
  refine ⟨?_, ?_, ?_, ?_, ?_, ?_, ?_, ?_⟩
  · rw [fifoNew]
    by_cases hc : c ≤ 0
    · rw [if_pos hc]
      simp
      omega
    · rw [if_neg hc]
      simp
      omega
  · intro f h
    rw [fifoNew] at h
    by_cases hc : c ≤ 0
    · rw [if_pos hc] at h
      exact Option.noConfusion h
    · rw [if_neg hc] at h
      obtain rfl := Option.some.inj h
      exact ⟨rfl, rfl, rfl, rfl⟩
  · rw [lruNew]
    by_cases hc : c ≤ 0
    · rw [if_pos hc]
      simp
      omega
    · rw [if_neg hc]
      simp
      omega
  · intro l h
    rw [lruNew] at h
    by_cases hc : c ≤ 0
    · rw [if_pos hc] at h
      exact Option.noConfusion h
    · rw [if_neg hc] at h
      obtain rfl := Option.some.inj h
      exact ⟨rfl, rfl, rfl⟩
  · rw [lfuNew]
    by_cases hc : c ≤ 0
    · rw [if_pos hc]
      simp
      omega
    · rw [if_neg hc]
      simp
      omega
  · intro l h
    rw [lfuNew] at h
    by_cases hc : c ≤ 0
    · rw [if_pos hc] at h
      exact Option.noConfusion h
    · rw [if_neg hc] at h
      obtain rfl := Option.some.inj h
      exact ⟨rfl, rfl, rfl, rfl, rfl⟩
  · rw [timedNew]
    by_cases hc : c ≤ 0
    · rw [if_pos hc]
      simp
      omega
    · rw [if_neg hc]
      by_cases hd : d ≤ 0
      · rw [if_pos hd]
        simp
        omega
      · rw [if_neg hd]
        simp
        omega
  · intro t h
    rw [timedNew] at h
    by_cases hc : c ≤ 0
    · rw [if_pos hc] at h
      exact Option.noConfusion h
    · rw [if_neg hc] at h
      by_cases hd : d ≤ 0
      · rw [if_pos hd] at h
        exact Option.noConfusion h
      · rw [if_neg hd] at h
        obtain rfl := Option.some.inj h
        exact ⟨rfl, rfl, rfl, rfl⟩

theorem claim_C8_construction_validation_witness :
    fifoNew Nat Nat 2 = some fifoNat2 ∧
    (fifoNat2.cache = [] ∧ fifoNat2.queue = [] ∧
      fifoNat2.capacity = (2 : Int).toNat ∧ fifoLen fifoNat2 = 0) ∧
    ((fifoNew Nat Nat 0).isSome ↔ 0 < (0 : Int)) ∧
    timedNew Nat Nat 2 100 = some timedNat2 ∧
    (timedNat2.cache = [] ∧ timedNat2.heap = [] ∧
      timedNat2.capacity = (2 : Int).toNat ∧ timedNat2.defaultTTL = 100) ∧
    ((timedNew Nat Nat 2 0).isSome ↔ (0 < (2 : Int) ∧ 0 < (0 : Int))) :=
  ⟨rfl,
   (claim_C8_construction_validation Nat Nat 2 100).2.1 fifoNat2 rfl,
   (claim_C8_construction_validation Nat Nat 0 100).1,
   rfl,
   (claim_C8_construction_validation Nat Nat 2 100).2.2.2.2.2.2.2 timedNat2 rfl,
   (claim_C8_construction_validation Nat Nat 2 0).2.2.2.2.2.2.1⟩

/-- Claim C9: in every LFU state reachable from construction, a full cache
has a live non-empty bucket at minFreq, so the eviction step inside Set
removes exactly one entry and evict's early return is unreachable; yet
Delete advances minFreq by exactly one when it empties the minimum bucket,
which can leave minFreq pointing at a missing bucket in non-full states. -/
theorem claim_C9_lfu_minfreq_invariant :
    (∀ (K V : Type) [DecidableEq K] (l : LFUCache K V), LFUReachable l →
      l.cache.length = l.capacity →
      (∃ b, alookup l.freqMap l.minFreq = some b ∧ b ≠ []) ∧
      (lfuEvict l).cache.length + 1 = l.cache.length) ∧
    (∃ s : LFUCache Nat Nat, LFUReachable s ∧
      s.cache.length < s.capacity ∧ s.minFreq = 2 ∧
      alookup s.freqMap s.minFreq = none) := by
  constructor
  · intro K V _ l hreach hfull
    have inv := lfuInv_reachable hreach
    constructor
    · obtain ⟨k, v, hk⟩ := inv.fullMin hfull
      obtain ⟨b, hbm, hmem⟩ := (inv.corr k l.minFreq).mpr ⟨v, hk⟩
      exact ⟨b, hbm, fun hc => by rw [hc] at hmem; exact List.not_mem_nil _ hmem⟩
    · exact (lfuInv_evict_full inv hfull).2
  · refine ⟨lfuRun lfuNat2
      [COp.set 1 10, COp.set 2 20, COp.get 1, COp.get 1, COp.del 2], ?_, ?_, ?_, ?_⟩
    · exact ⟨2, lfuNat2,
        [COp.set 1 10, COp.set 2 20, COp.get 1, COp.get 1, COp.del 2], rfl, rfl⟩
    · decide
    · decide
    · decide

theorem claim_C9_lfu_minfreq_invariant_witness :
    LFUReachable (lfuRun lfuNat2 [COp.set 1 10, COp.set 2 20, COp.set 3 30]) ∧
    (lfuRun lfuNat2 [COp.set 1 10, COp.set 2 20, COp.set 3 30]).cache.length =
      (lfuRun lfuNat2 [COp.set 1 10, COp.set 2 20, COp.set 3 30]).capacity ∧
    (∃ b, alookup (lfuRun lfuNat2 [COp.set 1 10, COp.set 2 20, COp.set 3 30]).freqMap
        (lfuRun lfuNat2 [COp.set 1 10, COp.set 2 20, COp.set 3 30]).minFreq =
        some b ∧ b ≠ []) ∧
    (lfuEvict (lfuRun lfuNat2 [COp.set 1 10, COp.set 2 20, COp.set 3 30])).cache.length + 1 =
      (lfuRun lfuNat2 [COp.set 1 10, COp.set 2 20, COp.set 3 30]).cache.length :=
  ⟨⟨2, lfuNat2, [COp.set 1 10, COp.set 2 20, COp.set 3 30], rfl, rfl⟩,
   by decide,
   (claim_C9_lfu_minfreq_invariant.1 Nat Nat _
     ⟨2, lfuNat2, [COp.set 1 10, COp.set 2 20, COp.set 3 30], rfl, rfl⟩
     (by decide)).1,
   (claim_C9_lfu_minfreq_invariant.1 Nat Nat _
     ⟨2, lfuNat2, [COp.set 1 10, COp.set 2 20, COp.set 3 30], rfl, rfl⟩
     (by decide)).2⟩

theorem alookup_append_singleton_ne {xs : List (K × V)} {p : K × V}
    {k' : K} (h : k' ≠ p.1) : alookup (xs ++ [p]) k' = alookup xs k' := by
  induction xs with
  | nil =>
    obtain ⟨k1, v1⟩ := p
    simp only [List.nil_append, alookup]
    rw [if_neg h]
  | cons q rest ih =>
    obtain ⟨k1, v1⟩ := q
    by_cases hq : k' = k1
    · simp [alookup, hq]
    · simp only [List.cons_append, alookup, if_neg hq]
      exact ih

/-- Claim C7: FIFO eviction order equals insertion order independent of
access pattern: Get leaves the state untouched, Set on an existing key
updates the value without moving the queue entry, and Set of a new key at
full capacity evicts the queue head, the oldest still-present inserted
key; in particular with capacity 2, inserting keys 1, 2, 3 evicts key 1
and leaves keys 2 and 3. -/
theorem claim_C7_fifo_policy :
    (∀ (K V : Type) [DecidableEq K] (f : FIFOCache K V) (k : K),
      fifoStep f (COp.get k) = f) ∧
    (∀ (K V : Type) [DecidableEq K] (f : FIFOCache K V) (k : K) (v : V),
      (alookup f.cache k).isSome →
      (fifoSet f k v).queue = f.queue ∧
      alookup (fifoSet f k v).cache k = some v ∧
      (∀ k', k' ≠ k → alookup (fifoSet f k v).cache k' = alookup f.cache k')) ∧
    (∀ (K V : Type) [DecidableEq K] (f : FIFOCache K V) (k k0 : K)
        (rest : List K) (v : V), FIFOReachable f →
      alookup f.cache k = none → f.queue = k0 :: rest →
      f.queue.length = f.capacity →
      (alookup f.cache k0).isSome ∧
      (fifoSet f k v).queue = rest ++ [k] ∧
      alookup (fifoSet f k v).cache k0 = none ∧
      alookup (fifoSet f k v).cache k = some v ∧
      (∀ k', k' ≠ k0 → k' ≠ k →
        alookup (fifoSet f k v).cache k' = alookup f.cache k')) ∧
    ((fifoRun fifoNat2 [COp.set 1 10, COp.set 2 20, COp.set 3 30]).queue = [2, 3] ∧
     alookup (fifoRun fifoNat2 [COp.set 1 10, COp.set 2 20, COp.set 3 30]).cache 1 = none ∧
     alookup (fifoRun fifoNat2 [COp.set 1 10, COp.set 2 20, COp.set 3 30]).cache 2 = some 20 ∧
     alookup (fifoRun fifoNat2 [COp.set 1 10, COp.set 2 20, COp.set 3 30]).cache 3 = some 30) := by
  refine ⟨?_, ?_, ?_, by decide, by decide, by decide, by decide⟩
  · intro K V _ f k
    rfl
  · intro K V _ f k v h
    rw [fifoSet, if_pos h]
    exact ⟨rfl, alookup_aset_self _ _ _, fun k' hk' => alookup_aset_ne _ _ hk'⟩
  · intro K V _ f k k0 rest v hreach hk hq hlen
    have inv := fifoInv_reachable hreach
    have hk0 : (alookup f.cache k0).isSome :=
      (inv.sync k0).mp (by rw [hq]; exact List.mem_cons_self _ _)
    have hkk0 : k0 ≠ k := fun hc => by
      rw [hc, hk] at hk0
      exact Bool.noConfusion hk0
    have hbody : fifoSet f k v =
        { cache := aset (aerase f.cache k0) k v, queue := rest ++ [k],
          capacity := f.capacity } := by
      rw [fifoSet, if_neg (by simp [hk]),
        if_pos (show f.queue.length ≥ f.capacity from le_of_eq hlen.symm), hq]
    rw [hbody]
    refine ⟨hk0, rfl, ?_, alookup_aset_self _ _ _, ?_⟩
    · show alookup (aset (aerase f.cache k0) k v) k0 = none
      rw [alookup_aset_ne _ _ hkk0, alookup_aerase_self _ inv.nodupKeys]
    · intro k' hk0' hk'
      show alookup (aset (aerase f.cache k0) k v) k' = alookup f.cache k'
      rw [alookup_aset_ne _ _ hk', alookup_aerase_ne _ hk0']

theorem claim_C7_fifo_policy_witness :
    ((alookup ([(5, 7)] : List (Nat × Nat)) 5).isSome ∧
      (fifoSet { cache := [(5, 7)], queue := [5], capacity := 2 } 5 9).queue = [5] ∧
      alookup (fifoSet { cache := [(5, 7)], queue := [5], capacity := 2 } 5 9).cache 5 = some 9) ∧
    (FIFOReachable (fifoRun fifoNat2 [COp.set 1 10, COp.set 2 20]) ∧
      (fifoSet (fifoRun fifoNat2 [COp.set 1 10, COp.set 2 20]) 3 30).queue = [2] ++ [3] ∧
      alookup (fifoSet (fifoRun fifoNat2 [COp.set 1 10, COp.set 2 20]) 3 30).cache 1 = none) := by
  constructor
  · have h := claim_C7_fifo_policy.2.1 Nat Nat
      { cache := [(5, 7)], queue := [5], capacity := 2 } 5 9 (by decide)
    exact ⟨by decide, h.1, h.2.1⟩
  · have hreach : FIFOReachable (fifoRun fifoNat2 [COp.set 1 10, COp.set 2 20]) :=
      ⟨2, fifoNat2, [COp.set 1 10, COp.set 2 20], rfl, rfl⟩
    have h := claim_C7_fifo_policy.2.2.1 Nat Nat
      (fifoRun fifoNat2 [COp.set 1 10, COp.set 2 20]) 3 1 [2] 30 hreach
      (by decide) (by decide) (by decide)
    exact ⟨hreach, h.2.1, h.2.2.1⟩

/-- Claim C2: LRU policy: Get on a present key and Set on an existing key
move the entry to the most-recent end (the list front), and Set of a new
key at full capacity evicts exactly the entry at the least-recent end (the
list back); with capacity 2, after set(1), set(2), get(1), set(3), key 2
is absent and keys 1 and 3 are present with their values. -/
theorem claim_C2_lru_policy :
    (∀ (K V : Type) [DecidableEq K] (l : LRUCache K V) (k : K) (v : V),
      alookup l.list k = some v →
      (lruGet l k).1 = some v ∧
      (lruGet l k).2.list.head? = some (k, v) ∧
      (lruGet l k).2.list.length = l.list.length ∧
      (∀ k', k' ≠ k → alookup (lruGet l k).2.list k' = alookup l.list k')) ∧
    (∀ (K V : Type) [DecidableEq K] (l : LRUCache K V) (k : K) (v0 v : V),
      alookup l.list k = some v0 →
      (lruSet l k v).list.head? = some (k, v) ∧
      (lruSet l k v).list.length = l.list.length ∧
      alookup (lruSet l k v).list k = some v ∧
      (∀ k', k' ≠ k → alookup (lruSet l k v).list k' = alookup l.list k')) ∧
    (∀ (K V : Type) [DecidableEq K] (l : LRUCache K V) (k kL : K)
        (vL : V) (ys : List (K × V)) (v : V), LRUReachable l →
      alookup l.list k = none → l.list = ys ++ [(kL, vL)] →
      l.list.length = l.capacity →
      (lruSet l k v).list = (k, v) :: ys ∧
      alookup (lruSet l k v).list kL = none ∧
      alookup (lruSet l k v).list k = some v ∧
      (∀ k', k' ≠ kL → k' ≠ k →
        alookup (lruSet l k v).list k' = alookup l.list k')) ∧
    ((lruRun lruNat2 [COp.set 1 10, COp.set 2 20, COp.get 1, COp.set 3 30]).list =
        [(3, 30), (1, 10)] ∧
     alookup (lruRun lruNat2 [COp.set 1 10, COp.set 2 20, COp.get 1, COp.set 3 30]).list 2 = none ∧
     alookup (lruRun lruNat2 [COp.set 1 10, COp.set 2 20, COp.get 1, COp.set 3 30]).list 1 = some 10 ∧
     alookup (lruRun lruNat2 [COp.set 1 10, COp.set 2 20, COp.get 1, COp.set 3 30]).list 3 = some 30) := by
  refine ⟨?_, ?_, ?_, by decide, by decide, by decide, by decide⟩
  · intro K V _ l k v h
    have hbody : lruGet l k = (some v, { l with list := (k, v) :: aerase l.list k }) := by
      rw [lruGet, h]
    rw [hbody]
    refine ⟨rfl, rfl, ?_, ?_⟩
    · exact length_cons_aerase_of_some v h
    · intro k' hk'
      show alookup ((k, v) :: aerase l.list k) k' = alookup l.list k'
      rw [alookup, if_neg hk', alookup_aerase_ne _ hk']
  · intro K V _ l k v0 v h
    have hbody : lruSet l k v = { l with list := (k, v) :: aerase l.list k } := by
      rw [lruSet, h]
    rw [hbody]
    refine ⟨rfl, ?_, ?_, ?_⟩
    · exact length_cons_aerase_of_some v h
    · show alookup ((k, v) :: aerase l.list k) k = some v
      rw [alookup, if_pos rfl]
    · intro k' hk'
      show alookup ((k, v) :: aerase l.list k) k' = alookup l.list k'
      rw [alookup, if_neg hk', alookup_aerase_ne _ hk']
  · intro K V _ l k kL vL ys v hreach hk hys hlen
    have inv := lruInv_reachable hreach
    have hkLmem : (kL, vL) ∈ l.list := by
      rw [hys]
      exact List.mem_append.mpr (Or.inr (List.mem_singleton.mpr rfl))
    have hkLk : kL ≠ k := fun hc => by
      have := alookup_isSome_of_mem hkLmem
      rw [hc, hk] at this
      exact Bool.noConfusion this
    have hkLys : kL ∉ akeys ys := by
      have hnd := inv.nodupKeys
      rw [hys] at hnd
      have : akeys (ys ++ [(kL, vL)]) = akeys ys ++ [kL] := by
        simp [akeys]
      rw [this, List.nodup_append] at hnd
      intro hc
      exact hnd.2.2 hc (List.mem_singleton.mpr rfl)
    have hbody : lruSet l k v = { l with list := (k, v) :: ys } := by
      rw [lruSet]
      simp only [hk]
      rw [if_pos (le_of_eq hlen.symm), hys, List.getLast?_concat]
      simp only [List.dropLast_concat]
    rw [hbody]
    refine ⟨rfl, ?_, ?_, ?_⟩
    · show alookup ((k, v) :: ys) kL = none
      rw [alookup, if_neg hkLk]
      exact alookup_eq_none_of_not_mem hkLys
    · show alookup ((k, v) :: ys) k = some v
      rw [alookup, if_pos rfl]
    · intro k' hkL' hk'
      show alookup ((k, v) :: ys) k' = alookup l.list k'
      rw [alookup, if_neg hk', hys,
        alookup_append_singleton_ne (show k' ≠ (kL, vL).1 from hkL')]

theorem claim_C2_lru_policy_witness :
    (alookup ([(5, 7)] : List (Nat × Nat)) 5 = some 7 ∧
      (lruGet { list := [(5, 7)], capacity := 2 } 5).1 = some 7 ∧
      (lruGet ({ list := [(5, 7)], capacity := 2 } : LRUCache Nat Nat) 5).2.list.head? = some (5, 7)) ∧
    (LRUReachable (lruRun lruNat2 [COp.set 1 10, COp.set 2 20, COp.get 1]) ∧
      (lruSet (lruRun lruNat2 [COp.set 1 10, COp.set 2 20, COp.get 1]) 3 30).list =
        (3, 30) :: [(1, 10)] ∧
      alookup (lruSet (lruRun lruNat2 [COp.set 1 10, COp.set 2 20, COp.get 1]) 3 30).list 2 = none) := by
  constructor
  · have h := claim_C2_lru_policy.1 Nat Nat { list := [(5, 7)], capacity := 2 } 5 7 (by decide)
    exact ⟨by decide, h.1, h.2.1⟩
  · have hreach : LRUReachable (lruRun lruNat2 [COp.set 1 10, COp.set 2 20, COp.get 1]) :=
      ⟨2, lruNat2, [COp.set 1 10, COp.set 2 20, COp.get 1], rfl, rfl⟩
    have h := claim_C2_lru_policy.2.2.1 Nat Nat
      (lruRun lruNat2 [COp.set 1 10, COp.set 2 20, COp.get 1]) 3 2 20 [(1, 10)] 30
      hreach (by decide) (by decide) (by decide)
    exact ⟨hreach, h.1, h.2.1⟩

/-- updateFreq raises the node's frequency by one and appends its key at
the back of the bucket for the new frequency. -/
theorem updateFreq_lookup {l : LFUCache K V} {k : K} {v : V} {f : Nat}
    (hkf : alookup l.cache k = some (v, f)) :
    alookup (updateFreq l k).cache k = some (v, f + 1) ∧
    alookup (updateFreq l k).freqMap (f + 1) =
      some (((alookup l.freqMap (f + 1)).getD []) ++ [k]) := by
  rw [updateFreq, hkf]
  have hne1 : f + 1 ≠ f := by omega
  by_cases hE : lerase ((alookup l.freqMap f).getD []) k = []
  · simp only [if_pos hE]
    refine ⟨alookup_aset_self _ _ _, ?_⟩
    rw [alookup_aset_self, alookup_aerase_ne _ hne1]
  · simp only [if_neg hE]
    refine ⟨alookup_aset_self _ _ _, ?_⟩
    rw [alookup_aset_self, alookup_aset_ne _ _ hne1]

/-- Claim C3: LFU policy: frequency counters start at 1 on insertion and
are incremented by each Get and each Set on an existing key, the entry
moving to the tail of the bucket for the new frequency; a Set of a new key
at full capacity evicts the head entry of the minimum-frequency bucket,
the lowest-frequency entry, earliest-touched first among equal
frequencies; with capacity 2, after set(1), set(2), get(1), set(3), key 2
is evicted and keys 1 and 3 remain. -/
theorem claim_C3_lfu_policy :
    (∀ (K V : Type) [DecidableEq K] (l : LFUCache K V) (k : K) (v : V),
      alookup l.cache k = none →
      alookup (lfuSet l k v).cache k = some (v, 1) ∧
      (lfuSet l k v).minFreq = 1) ∧
    (∀ (K V : Type) [DecidableEq K] (l : LFUCache K V) (k : K) (v : V)
        (f : Nat), alookup l.cache k = some (v, f) →
      (lfuGet l k).1 = some v ∧
      alookup (lfuGet l k).2.cache k = some (v, f + 1) ∧
      alookup (lfuGet l k).2.freqMap (f + 1) =
        some (((alookup l.freqMap (f + 1)).getD []) ++ [k])) ∧
    (∀ (K V : Type) [DecidableEq K] (l : LFUCache K V) (k : K) (v0 v : V)
        (f : Nat), alookup l.cache k = some (v0, f) →
      alookup (lfuSet l k v).cache k = some (v, f + 1) ∧
      alookup (lfuSet l k v).freqMap (f + 1) =
        some (((alookup l.freqMap (f + 1)).getD []) ++ [k])) ∧
    (∀ (K V : Type) [DecidableEq K] (l : LFUCache K V) (k : K) (v : V),
      LFUReachable l → l.cache.length = l.capacity →
      alookup l.cache k = none →
      ∃ k0 rest v0, alookup l.freqMap l.minFreq = some (k0 :: rest) ∧
        alookup l.cache k0 = some (v0, l.minFreq) ∧
        (∀ k' v' f', alookup l.cache k' = some (v', f') → l.minFreq ≤ f') ∧
        alookup (lfuSet l k v).cache k0 = none ∧
        alookup (lfuSet l k v).cache k = some (v, 1) ∧
        (lfuSet l k v).cache.length = l.capacity) ∧
    (alookup (lfuRun lfuNat2 [COp.set 1 10, COp.set 2 20, COp.get 1, COp.set 3 30]).cache 2 = none ∧
     alookup (lfuRun lfuNat2 [COp.set 1 10, COp.set 2 20, COp.get 1, COp.set 3 30]).cache 1 = some (10, 2) ∧
     alookup (lfuRun lfuNat2 [COp.set 1 10, COp.set 2 20, COp.get 1, COp.set 3 30]).cache 3 = some (30, 1)) ∧
    (alookup (lfuRun lfuNat2 [COp.set 1 10, COp.set 2 20, COp.get 1, COp.get 2, COp.set 3 30]).cache 1 = none ∧
     alookup (lfuRun lfuNat2 [COp.set 1 10, COp.set 2 20, COp.get 1, COp.get 2, COp.set 3 30]).cache 2 = some (20, 2) ∧
     alookup (lfuRun lfuNat2 [COp.set 1 10, COp.set 2 20, COp.get 1, COp.get 2, COp.set 3 30]).cache 3 = some (30, 1)) := by
  refine ⟨?_, ?_, ?_, ?_, by refine ⟨?_, ?_, ?_⟩ <;> decide,
    by refine ⟨?_, ?_, ?_⟩ <;> decide⟩
  · intro K V _ l k v hk
    rw [lfuSet, hk]
    by_cases hfull : l.cache.length ≥ l.capacity
    · simp only [if_pos hfull]
      exact ⟨alookup_aset_self _ _ _, trivial⟩
    · simp only [if_neg hfull]
      exact ⟨alookup_aset_self _ _ _, trivial⟩
  · intro K V _ l k v f hk
    have hbody : lfuGet l k = (some v, updateFreq l k) := by
      rw [lfuGet, hk]
    rw [hbody]
    exact ⟨rfl, (updateFreq_lookup hk).1, (updateFreq_lookup hk).2⟩
  · intro K V _ l k v0 v f hk
    have hbody : lfuSet l k v =
        updateFreq { l with cache := aset l.cache k (v, f) } k := by
      rw [lfuSet, hk]
    rw [hbody]
    have hk2 : alookup ({ l with cache := aset l.cache k (v, f) } :
        LFUCache K V).cache k = some (v, f) := alookup_aset_self _ _ _
    exact ⟨(updateFreq_lookup hk2).1, (updateFreq_lookup hk2).2⟩
  · intro K V _ l k v hreach hfull hk
    have inv := lfuInv_reachable hreach
    obtain ⟨k0, rest, v0, hbm, hk0, heq⟩ := lfuEvict_full_spec inv hfull
    have hk0k : k0 ≠ k := fun hc => by
      rw [hc, hk] at hk0
      exact Option.noConfusion hk0
    have hbody : lfuSet l k v =
        { cache := aset (lfuEvict l).cache k (v, 1),
          freqMap := aset (lfuEvict l).freqMap 1
            (((alookup (lfuEvict l).freqMap 1).getD []) ++ [k]),
          minFreq := 1, capacity := l.capacity } := by
      rw [lfuSet, hk]
      simp only [if_pos (le_of_eq hfull.symm)]
    have hech : (lfuEvict l).cache = aerase l.cache k0 := by rw [heq]
    refine ⟨k0, rest, v0, hbm, hk0, ?_, ?_, ?_, ?_⟩
    · intro k' v' f' hl'
      exact inv.minLe k' v' f' hl'
    · rw [hbody]
      show alookup (aset (lfuEvict l).cache k (v, 1)) k0 = none
      rw [alookup_aset_ne _ _ hk0k, hech, alookup_aerase_self _ inv.nodupKeys]
    · rw [hbody]
      exact alookup_aset_self _ _ _
    · rw [hbody]
      show (aset (lfuEvict l).cache k (v, 1)).length = l.capacity
      have hkE : alookup (lfuEvict l).cache k = none := by
        rw [hech, alookup_aerase_ne _ (fun hc => hk0k hc.symm)]
        exact hk
      rw [length_aset_of_lookup_none _ hkE]
      have hlen := (lfuInv_evict_full inv hfull).2
      omega

theorem claim_C3_lfu_policy_witness :
    (alookup ([] : List (Nat × Nat × Nat)) 4 = none ∧
      alookup (lfuSet lfuNat2 4 40).cache 4 = some (40, 1) ∧
      (lfuSet lfuNat2 4 40).minFreq = 1) ∧
    (alookup (lfuRun lfuNat2 [COp.set 1 10]).cache 1 = some (10, 1) ∧
      (lfuGet (lfuRun lfuNat2 [COp.set 1 10]) 1).1 = some 10 ∧
      alookup (lfuGet (lfuRun lfuNat2 [COp.set 1 10]) 1).2.cache 1 = some (10, 2)) ∧
    (LFUReachable (lfuRun lfuNat2 [COp.set 1 10, COp.set 2 20, COp.get 1]) ∧
      alookup (lfuSet (lfuRun lfuNat2 [COp.set 1 10, COp.set 2 20, COp.get 1]) 3 30).cache 2 = none ∧
      alookup (lfuSet (lfuRun lfuNat2 [COp.set 1 10, COp.set 2 20, COp.get 1]) 3 30).cache 3 = some (30, 1)) := by
  refine ⟨?_, ?_, ?_⟩
  · have h := claim_C3_lfu_policy.1 Nat Nat lfuNat2 4 40 (by decide)
    exact ⟨by decide, h.1, h.2⟩
  · have h := claim_C3_lfu_policy.2.1 Nat Nat
      (lfuRun lfuNat2 [COp.set 1 10]) 1 10 1 (by decide)
    exact ⟨by decide, h.1, h.2.1⟩
  · have hreach : LFUReachable (lfuRun lfuNat2 [COp.set 1 10, COp.set 2 20, COp.get 1]) :=
      ⟨2, lfuNat2, [COp.set 1 10, COp.set 2 20, COp.get 1], rfl, rfl⟩
    obtain ⟨k0, rest, v0, hbm, hk0, hmin, habsent, hnew, hlen⟩ :=
      claim_C3_lfu_policy.2.2.2.1 Nat Nat
        (lfuRun lfuNat2 [COp.set 1 10, COp.set 2 20, COp.get 1]) 3 30
        hreach (by decide) (by decide)
    have hk02 : k0 = 2 := by
      have hbm2 : alookup (lfuRun lfuNat2
          [COp.set 1 10, COp.set 2 20, COp.get 1]).freqMap
          (lfuRun lfuNat2 [COp.set 1 10, COp.set 2 20, COp.get 1]).minFreq =
          some [2] := by decide
      rw [hbm2] at hbm
      obtain h2 := Option.some.inj hbm
      exact (List.cons.injEq .. ▸ h2).1.symm
    rw [hk02] at habsent
    exact ⟨hreach, habsent, hnew⟩

theorem timedGet_heap (t : TimedCache K V) (k : K) (now : Int) :
    (timedGet t k now).2.heap = (cleanupExpired now t).heap := by
  simp only [timedGet]
  cases alookup (cleanupExpired now t).cache k with
  | none => rfl
  | some p =>
    obtain ⟨v, e⟩ := p
    simp only []
    by_cases h : e < now
    · rw [if_pos h]
    · rw [if_neg h]

/-- Claim C4: Timed cache lazy expiry: an entry stored with TTL d is
retrievable strictly before its expiration time and reported absent (and
removed) by a Get at or after it, with no explicit cleanup call; and every
Get, Set and Len first pops from the heap exactly the records whose
timestamp is <= now before examining the requested key. -/
theorem claim_C4_timed_lazy_expiry :
    (∀ (K V : Type) [DecidableEq K] (t : TimedCache K V) (k : K) (v : V)
        (d t0 t1 : Int), TimedReachable t →
      (t1 < t0 + d → (timedGet (setWithTTL t k v d t0) k t1).1 = some v) ∧
      (t0 + d ≤ t1 →
        (timedGet (setWithTTL t k v d t0) k t1).1 = none ∧
        alookup ((timedGet (setWithTTL t k v d t0) k t1).2).cache k = none)) ∧
    (∀ (K V : Type) [DecidableEq K] (t : TimedCache K V) (k : K) (now : Int),
      TimedReachable t →
      (cleanupExpired now t).heap = t.heap.filter (fun r => now < r.2) ∧
      (timedGet t k now).2.heap = t.heap.filter (fun r => now < r.2) ∧
      (timedLen t now).2.heap = t.heap.filter (fun r => now < r.2) ∧
      (timedLen t now).1 = (cleanupExpired now t).cache.length) := by
  constructor
  · intro K V _ t k v d t0 t1 hreach
    have inv := timedInv_reachable hreach
    have inv2 := timedInv_setWithTTL inv k v d t0
    have hl := setWithTTL_lookup_self t k v d t0
    constructor
    · intro hlt
      exact (timedGet_live inv2 hl hlt).1
    · intro hge
      exact timedGet_expired inv2 hl hge
  · intro K V _ t k now hreach
    have inv := timedInv_reachable hreach
    have hheap : (cleanupExpired now t).heap =
        t.heap.filter (fun r => now < r.2) := by
      show (cleanupLoop now t.heap t.cache).1 = _
      exact cleanupLoop_heap _ inv.sorted
    refine ⟨hheap, ?_, hheap, rfl⟩
    rw [timedGet_heap]
    exact hheap

theorem claim_C4_timed_lazy_expiry_witness :
    TimedReachable timedNat2 ∧
    ((5 : Int) < 0 + 20 →
      (timedGet (setWithTTL timedNat2 1 11 20 0) 1 5).1 = some 11) ∧
    ((0 : Int) + 20 ≤ 30 →
      (timedGet (setWithTTL timedNat2 1 11 20 0) 1 30).1 = none ∧
      alookup ((timedGet (setWithTTL timedNat2 1 11 20 0) 1 30).2).cache 1 = none) ∧
    (cleanupExpired 5 timedNat2).heap = timedNat2.heap.filter (fun r => 5 < r.2) :=
  ⟨⟨2, 100, timedNat2, [], rfl, rfl⟩,
   (claim_C4_timed_lazy_expiry.1 Nat Nat timedNat2 1 11 20 0 5
     ⟨2, 100, timedNat2, [], rfl, rfl⟩).1,
   (claim_C4_timed_lazy_expiry.1 Nat Nat timedNat2 1 11 20 0 30
     ⟨2, 100, timedNat2, [], rfl, rfl⟩).2,
   (claim_C4_timed_lazy_expiry.2 Nat Nat timedNat2 1 5
     ⟨2, 100, timedNat2, [], rfl, rfl⟩).1⟩

/-- Claim C6: Timed cache tombstone reconciliation: a Set on an existing
key pushes a new heap record (the old records survive untouched); in both
the cleanup sweep and the overflow-eviction loop, a popped heap record
whose expiration does not match the key's current expiration in the
index, or whose key is gone, is discarded with no change to the cache;
consequently the sweep removes exactly the keys whose current expiration
is <= now. -/
theorem claim_C6_timed_tombstones :
    (∀ (K V : Type) [DecidableEq K] (t : TimedCache K V) (k : K) (v : V)
        (ttl now : Int),
      (alookup (cleanupExpired now t).cache k).isSome →
      (setWithTTL t k v ttl now).heap =
        hpush (cleanupExpired now t).heap (k, now + ttl) ∧
      (setWithTTL t k v ttl now).heap.length =
        (cleanupExpired now t).heap.length + 1 ∧
      (∀ r, r ∈ (cleanupExpired now t).heap →
        r ∈ (setWithTTL t k v ttl now).heap)) ∧
    (∀ (K V : Type) [DecidableEq K] (k : K) (e now : Int)
        (hs : List (K × Int)) (c : List (K × (V × Int))),
      e ≤ now → (∀ v0 e0, alookup c k = some (v0, e0) → e0 ≠ e) →
      cleanupLoop now ((k, e) :: hs) c = cleanupLoop now hs c) ∧
    (∀ (K V : Type) [DecidableEq K] (cap : Nat) (k : K) (e : Int)
        (hs : List (K × Int)) (c : List (K × (V × Int))),
      cap ≤ c.length →
      (∀ v0 e0, alookup c k = some (v0, e0) → e0 ≠ e) →
      evictLoop cap ((k, e) :: hs) c = evictLoop cap hs c) ∧
    (∀ (K V : Type) [DecidableEq K] (t : TimedCache K V) (now : Int)
        (k' : K), TimedReachable t →
      alookup (cleanupExpired now t).cache k' =
        match alookup t.cache k' with
        | some (v0, e0) => if now < e0 then some (v0, e0) else none
        | none => none) := by
  refine ⟨?_, ?_, ?_, ?_⟩
  · intro K V _ t k v ttl now hsome
    obtain ⟨p, hp⟩ := Option.isSome_iff_exists.mp hsome
    have hbody : setWithTTL t k v ttl now =
        { cleanupExpired now t with
          cache := aset (cleanupExpired now t).cache k (v, now + ttl),
          heap := hpush (cleanupExpired now t).heap (k, now + ttl) } := by
      rw [setWithTTL, hp]
    rw [hbody]
    refine ⟨rfl, length_hpush _ _, ?_⟩
    intro r hr
    exact mem_hpush.mpr (Or.inr hr)
  · intro K V _ k e now hs c hle hstale
    rw [cleanupLoop, if_neg (by omega)]
    have hpc : popCheck c k e = c := by
      rw [popCheck]
      cases hck : alookup c k with
      | none => rfl
      | some p =>
        obtain ⟨v0, e0⟩ := p
        simp only []
        rw [if_neg (hstale v0 e0 hck)]
    rw [hpc]
  · intro K V _ cap k e hs c hlen hstale
    rw [evictLoop, if_pos hlen]
    have hpc : popCheck c k e = c := by
      rw [popCheck]
      cases hck : alookup c k with
      | none => rfl
      | some p =>
        obtain ⟨v0, e0⟩ := p
        simp only []
        rw [if_neg (hstale v0 e0 hck)]
    rw [hpc]
  · intro K V _ t now k' hreach
    exact cleanup_lookup (timedInv_reachable hreach) now k'

theorem claim_C6_timed_tombstones_witness :
    ((alookup (cleanupExpired 5 (setWithTTL timedNat2 1 11 20 0)).cache 1).isSome ∧
      (setWithTTL (setWithTTL timedNat2 1 11 20 0) 1 12 50 5).heap =
        hpush (cleanupExpired 5 (setWithTTL timedNat2 1 11 20 0)).heap (1, 5 + 50) ∧
      (1, (20 : Int)) ∈ (setWithTTL (setWithTTL timedNat2 1 11 20 0) 1 12 50 5).heap) ∧
    ((3 : Int) ≤ 5 ∧
      cleanupLoop 5 [((1 : Nat), (3 : Int))] [((1 : Nat), ((11 : Nat), (20 : Int)))] =
        cleanupLoop 5 [] [((1 : Nat), ((11 : Nat), (20 : Int)))]) ∧
    (1 ≤ [((1 : Nat), ((11 : Nat), (20 : Int)))].length ∧
      evictLoop 1 [((1 : Nat), (3 : Int)), ((1 : Nat), (20 : Int))]
          [((1 : Nat), ((11 : Nat), (20 : Int)))] =
        evictLoop 1 [((1 : Nat), (20 : Int))]
          [((1 : Nat), ((11 : Nat), (20 : Int)))]) ∧
    (TimedReachable (setWithTTL timedNat2 1 11 20 0) ∧
      alookup (cleanupExpired 30 (setWithTTL timedNat2 1 11 20 0)).cache 1 = none) := by
  refine ⟨?_, ?_, ?_, ?_⟩
  · have h := claim_C6_timed_tombstones.1 Nat Nat (setWithTTL timedNat2 1 11 20 0)
      1 12 50 5 (by decide)
    refine ⟨by decide, h.1, ?_⟩
    exact h.2.2 (1, 20) (by decide)
  · exact ⟨by decide,
      claim_C6_timed_tombstones.2.1 Nat Nat 1 3 5 []
        [((1 : Nat), ((11 : Nat), (20 : Int)))] (by decide)
        (fun v0 e0 h => by
          simp [alookup] at h
          omega)⟩
  · exact ⟨by decide,
      claim_C6_timed_tombstones.2.2.1 Nat Nat 1 1 3
        [((1 : Nat), (20 : Int))]
        [((1 : Nat), ((11 : Nat), (20 : Int)))] (by decide)
        (fun v0 e0 h => by
          simp [alookup] at h
          omega)⟩
  · have hreach : TimedReachable (setWithTTL timedNat2 1 11 20 0) :=
      ⟨2, 100, timedNat2, [TOp.setTTL 1 11 20 0], rfl, rfl⟩
    have h := claim_C6_timed_tombstones.2.2.2 Nat Nat
      (setWithTTL timedNat2 1 11 20 0) 30 1 hreach
    refine ⟨hreach, ?_⟩
    rw [h]
    decide

/-- Claim C10: SetWithTTL with a non-positive ttl raises no error and
performs no validation: the entry is stored with an expiration at or
before the call time, so it counts as already expired and a later Get of
the key reports found = false and removes it. -/
theorem claim_C10_nonpositive_ttl :
    ∀ (K V : Type) [DecidableEq K] (t : TimedCache K V) (k : K) (v : V)
        (ttl t0 t1 : Int), TimedReachable t → ttl ≤ 0 → t0 ≤ t1 →
      alookup (setWithTTL t k v ttl t0).cache k = some (v, t0 + ttl) ∧
      t0 + ttl ≤ t0 ∧
      (timedGet (setWithTTL t k v ttl t0) k t1).1 = none ∧
      alookup ((timedGet (setWithTTL t k v ttl t0) k t1).2).cache k = none := by
  intro K V _ t k v ttl t0 t1 hreach httl ht
  have inv := timedInv_reachable hreach
  have inv2 := timedInv_setWithTTL inv k v ttl t0
  have hl := setWithTTL_lookup_self t k v ttl t0
  have hexp := timedGet_expired inv2 hl (show t0 + ttl ≤ t1 by omega)
  exact ⟨hl, by omega, hexp.1, hexp.2⟩

theorem claim_C10_nonpositive_ttl_witness :
    TimedReachable timedNat2 ∧ (-5 : Int) ≤ 0 ∧ (10 : Int) ≤ 10 ∧
    alookup (setWithTTL timedNat2 1 11 (-5) 10).cache 1 = some (11, 10 + (-5)) ∧
    (timedGet (setWithTTL timedNat2 1 11 (-5) 10) 1 10).1 = none :=
  ⟨⟨2, 100, timedNat2, [], rfl, rfl⟩, by decide, by decide,
   (claim_C10_nonpositive_ttl Nat Nat timedNat2 1 11 (-5) 10 10
     ⟨2, 100, timedNat2, [], rfl, rfl⟩ (by decide) (by decide)).1,
   (claim_C10_nonpositive_ttl Nat Nat timedNat2 1 11 (-5) 10 10
     ⟨2, 100, timedNat2, [], rfl, rfl⟩ (by decide) (by decide)).2.2.1⟩

/-- Claim C5, counterexample to the claim as stated: under capacity 1 with
an unexpired first entry (expiration 100, call time 10), the second entry
(expiration 15) is the earliest-expiring of the two, yet it is NOT the
evicted one: SetWithTTL evicts the resident first entry (the only live
entry) and keeps the new one. -/
theorem claim_C5_counterexample :
    timedNew Nat Nat 1 50 = some timedNat1 ∧
    alookup (setWithTTL timedNat1 1 11 100 0).cache 1 = some (11, 100) ∧
    (10 : Int) < 100 ∧ (10 + 5 : Int) < 100 ∧
    ¬ (alookup (setWithTTL (setWithTTL timedNat1 1 11 100 0) 2 22 5 10).cache 2 = none) ∧
    alookup (setWithTTL (setWithTTL timedNat1 1 11 100 0) 2 22 5 10).cache 1 = none ∧
    alookup (setWithTTL (setWithTTL timedNat1 1 11 100 0) 2 22 5 10).cache 2 = some (22, 15) :=
  ⟨rfl, by decide, by decide, by decide, by decide, by decide, by decide⟩

/-- Claim C5 (amended): when Set or SetWithTTL of a new key finds the
cache at capacity and no entry is expired, it evicts exactly one entry,
namely the live entry with the earliest expiration timestamp, regardless
of insertion or access order; in particular under capacity 1 with an
unexpired first entry, inserting a second entry evicts the first
(resident) entry, which is the earliest-expiring of the two whenever the
first entry's expiration is the earlier one. -/
theorem claim_C5_timed_capacity_eviction :
    (∀ (K V : Type) [DecidableEq K] (t : TimedCache K V) (k : K) (v : V)
        (ttl now : Int), TimedReachable t →
      t.cache.length = t.capacity →
      alookup t.cache k = none →
      (∀ k' v' e', alookup t.cache k' = some (v', e') → now < e') →
      ∃ k0 v0 e0, alookup t.cache k0 = some (v0, e0) ∧
        (∀ k' v' e', k' ≠ k0 → alookup t.cache k' = some (v', e') → e0 ≤ e') ∧
        (setWithTTL t k v ttl now).cache =
          aset (aerase t.cache k0) k (v, now + ttl) ∧
        (setWithTTL t k v ttl now).cache.length = t.capacity ∧
        alookup (setWithTTL t k v ttl now).cache k0 = none ∧
        alookup (setWithTTL t k v ttl now).cache k = some (v, now + ttl)) ∧
    (alookup (setWithTTL (setWithTTL timedNat1 1 11 20 0) 2 22 100 10).cache 1 = none ∧
     alookup (setWithTTL (setWithTTL timedNat1 1 11 20 0) 2 22 100 10).cache 2 = some (22, 110) ∧
     (20 : Int) ≤ 110) := by
  constructor
  · intro K V _ t k v ttl now hreach hfull hk hlive
    have inv := timedInv_reachable hreach
    have hcache1 : (cleanupExpired now t).cache = t.cache := by
      show (cleanupLoop now t.heap t.cache).2 = t.cache
      exact cleanupLoop_cache_of_live hlive
    have hheap1 : (cleanupExpired now t).heap =
        t.heap.filter (fun r => now < r.2) := by
      show (cleanupLoop now t.heap t.cache).1 = _
      exact cleanupLoop_heap _ inv.sorted
    have hknone : alookup (cleanupExpired now t).cache k = none := by
      rw [hcache1]
      exact hk
    have hsortf : List.Pairwise (fun a b : K × Int => a.2 ≤ b.2)
        (t.heap.filter (fun r => now < r.2)) := inv.sorted.filter _
    have hcovf : HeapCovers (t.heap.filter (fun r => now < r.2)) t.cache := by
      intro k' v' e' hl'
      exact List.mem_filter.mpr
        ⟨inv.covered k' v' e' hl', decide_eq_true (hlive k' v' e' hl')⟩
    have hfull2 : t.cache.length = (cleanupExpired now t).capacity := hfull
    obtain ⟨k0, v0, e0, hk0, hres, hmin⟩ :=
      evictLoop_exact hsortf hcovf inv.nodupKeys inv.capPos hfull2
    have hk0k : k0 ≠ k := fun hc => by
      rw [hc, hk] at hk0
      exact Option.noConfusion hk0
    have hbody : setWithTTL t k v ttl now =
        { cleanupExpired now t with
          cache := aset (evictLoop (cleanupExpired now t).capacity
            (cleanupExpired now t).heap (cleanupExpired now t).cache).2 k
            (v, now + ttl),
          heap := hpush (evictLoop (cleanupExpired now t).capacity
            (cleanupExpired now t).heap (cleanupExpired now t).cache).1
            (k, now + ttl) } := by
      rw [setWithTTL, hknone]
    have hcform : (setWithTTL t k v ttl now).cache =
        aset (aerase t.cache k0) k (v, now + ttl) := by
      rw [hbody]
      show aset (evictLoop (cleanupExpired now t).capacity
        (cleanupExpired now t).heap (cleanupExpired now t).cache).2 k
        (v, now + ttl) = _
      have hcapeq : (cleanupExpired now t).capacity = t.capacity := rfl
      rw [hcache1, hheap1, hcapeq, hres]
    have hkE : alookup (aerase t.cache k0) k = none := by
      rw [alookup_aerase_ne _ (fun hc => hk0k hc.symm)]
      exact hk
    refine ⟨k0, v0, e0, hk0, hmin, hcform, ?_, ?_, ?_⟩
    · rw [hcform, length_aset_of_lookup_none _ hkE]
      have hlen := length_aerase_of_lookup_some
        (m := t.cache) (k := k0) (by simp [hk0])
      omega
    · rw [hcform, alookup_aset_ne _ _ hk0k,
        alookup_aerase_self _ inv.nodupKeys]
    · rw [hcform]
      exact alookup_aset_self _ _ _
  · exact ⟨by decide, by decide, by decide⟩

theorem claim_C5_timed_capacity_eviction_witness :
    TimedReachable (setWithTTL timedNat1 1 11 20 0) ∧
    (setWithTTL timedNat1 1 11 20 0).cache.length =
      (setWithTTL timedNat1 1 11 20 0).capacity ∧
    alookup (setWithTTL timedNat1 1 11 20 0).cache 2 = none ∧
    (∃ k0 v0 e0,
      alookup (setWithTTL timedNat1 1 11 20 0).cache k0 = some (v0, e0) ∧
      (∀ k' v' e', k' ≠ k0 →
        alookup (setWithTTL timedNat1 1 11 20 0).cache k' = some (v', e') →
        e0 ≤ e') ∧
      (setWithTTL (setWithTTL timedNat1 1 11 20 0) 2 22 100 10).cache =
        aset (aerase (setWithTTL timedNat1 1 11 20 0).cache k0) 2 (22, 10 + 100) ∧
      (setWithTTL (setWithTTL timedNat1 1 11 20 0) 2 22 100 10).cache.length =
        (setWithTTL timedNat1 1 11 20 0).capacity ∧
      alookup (setWithTTL (setWithTTL timedNat1 1 11 20 0) 2 22 100 10).cache k0 = none ∧
      alookup (setWithTTL (setWithTTL timedNat1 1 11 20 0) 2 22 100 10).cache 2 =
        some (22, 10 + 100)) := by
  have hreach : TimedReachable (setWithTTL timedNat1 1 11 20 0) :=
    ⟨1, 50, timedNat1, [TOp.setTTL 1 11 20 0], rfl, rfl⟩
  refine ⟨hreach, by decide, by decide, ?_⟩
  exact claim_C5_timed_capacity_eviction.1 Nat Nat
    (setWithTTL timedNat1 1 11 20 0) 2 22 100 10 hreach
    (by decide) (by decide)
    (fun k' v' e' h => by
      have hcv : (setWithTTL timedNat1 1 11 20 0).cache = [(1, (11, 20))] := by
        decide
      rw [hcv] at h
      by_cases hk1 : k' = 1
      · rw [hk1] at h
        simp [alookup] at h
        omega
      · simp [alookup, hk1] at h)

end GoUtilsCache
